import Mathlib

/-!
Verification of the "Sorting data of files" application.

The Python sources are shallowly embedded: the alphanumeric column-name
comparator (`functions.sort_alphanumeric` / `functions.convert`), record
re-ordering (`functions.order_record`), schema gathering
(`ProcessData.sort_headers`), record padding (`ProcessData.complete_record`),
the round-robin merge engine (`ProcessData.process_data`), the TSV writer
(`TSVFileGenerator.set_data`), the reader/writer factories and the JSON
record reader.

Python's comparisons can raise `TypeError`; a comparison is therefore
modelled as `Option Ordering`, with `none` standing for a raised
`TypeError`.  Python's `sorted`/`list.sort` is a stable sort driven by the
strict `<` of the keys; it is modelled by a stable insertion sort
(`stableSort`), which computes the same list as any stable sort for the
same strict order.  Strings are modelled over their Lean character
sequences, compared by code point exactly as Python compares `str` values.

Raising code comes in two layers.  The total functions (`alphaTokens`,
`sortAlphanumeric`, `engineRound`, `engineReturn`, `orderRecord`) give
the value computed when nothing raises; alongside them, `Option`-valued
functions (`alphaTokensOptF`, `sortAlphanumericOpt`, `engineRoundOpt`,
`engineReturnOpt`, `orderRecordOpt`, `sortHeadersOpt`,
`processDataEngineOpt`) carry the raising paths — `TypeError` from a key
comparison, `ValueError` from `int` or from unpacking an empty zip,
`NameError` from the zero-file schema path — and bridge lemmas show each
faithful function agrees with its total counterpart exactly on the
domain where Python does not raise.  `convert`'s character classes
(`str.isdigit`, `int`, `str.upper`) are Unicode-aware in Python but are
modelled on a documented fragment of the Unicode tables (`uniDigitVal`,
`uniIsDigitChar`): complete on ASCII and on the non-ASCII code points the
counterexamples exercise, classifying every other character as a
non-digit; theorems over arbitrary inputs are accordingly stated for
ASCII strings.
-/

namespace SortingData

/-- Comparison in a linear order as a three-way `Ordering`, the semantics of
Python's `<`, `==`, `>` on values of one comparable type. -/
def ordCmp {α : Type} [LinearOrder α] (a b : α) : Ordering :=
  if a < b then .lt else if b < a then .gt else .eq

theorem ordCmp_eq_lt {α : Type} [LinearOrder α] {a b : α} :
    ordCmp a b = .lt ↔ a < b := by
  unfold ordCmp
  split
  · simp [*]
  · split <;> simp_all

theorem ordCmp_eq_gt {α : Type} [LinearOrder α] {a b : α} :
    ordCmp a b = .gt ↔ b < a := by
  unfold ordCmp
  split
  · constructor
    · intro h; cases h
    · intro h; exact absurd (lt_trans h (by assumption)) (lt_irrefl _)
  · split <;> simp_all

theorem ordCmp_eq_eq {α : Type} [LinearOrder α] {a b : α} :
    ordCmp a b = .eq ↔ a = b := by
  unfold ordCmp
  split
  · constructor
    · intro h; cases h
    · intro h; subst h; exact absurd (by assumption) (lt_irrefl _)
  · split
    · constructor
      · intro h; cases h
      · intro h; subst h; exact absurd (by assumption) (lt_irrefl _)
    · constructor
      · intro _; exact le_antisymm (not_lt.mp (by assumption)) (not_lt.mp (by assumption))
      · intro _; rfl

theorem ordCmp_swap {α : Type} [LinearOrder α] (a b : α) :
    ordCmp b a = (ordCmp a b).swap := by
  rcases lt_trichotomy a b with h | h | h
  · rw [ordCmp_eq_lt.mpr h, show ordCmp b a = .gt from ordCmp_eq_gt.mpr h]; rfl
  · subst h; rw [ordCmp_eq_eq.mpr rfl]; rfl
  · rw [show ordCmp a b = .gt from ordCmp_eq_gt.mpr h, ordCmp_eq_lt.mpr h]; rfl

/-- Lexicographic comparison of two lists given a possibly-failing element
comparison: the semantics of Python's comparison of two lists, where the
first unequal position decides and comparing it can raise (`none`). -/
def lexOpt {α : Type} (c : α → α → Option Ordering) :
    List α → List α → Option Ordering
  | [], [] => some .eq
  | [], _ :: _ => some .lt
  | _ :: _, [] => some .gt
  | a :: as, b :: bs =>
    match c a b with
    | none => none
    | some .eq => lexOpt c as bs
    | some .lt => some .lt
    | some .gt => some .gt

/-- A possibly-failing comparison is lawful when equality outcomes mean real
equality, swapping the arguments swaps the outcome, and strict outcomes are
transitive.  The element comparisons used by the application all satisfy
this. -/
structure LawfulCmp {α : Type} (c : α → α → Option Ordering) : Prop where
  eq_iff : ∀ a b : α, c a b = some .eq → a = b
  refl : ∀ a : α, c a a = some .eq
  swap : ∀ a b : α, c b a = (c a b).map Ordering.swap
  lt_trans : ∀ a b d : α, c a b = some .lt → c b d = some .lt → c a d = some .lt

theorem lawful_ordCmpOpt {α : Type} [LinearOrder α] :
    LawfulCmp (fun a b : α => some (ordCmp a b)) where
  eq_iff := by intro a b h; exact ordCmp_eq_eq.mp (by injection h)
  refl := by intro a; rw [ordCmp_eq_eq.mpr rfl]
  swap := by intro a b; rw [ordCmp_swap]; rfl
  lt_trans := by
    intro a b d h1 h2
    have h1 := ordCmp_eq_lt.mp (by injection h1)
    have h2 := ordCmp_eq_lt.mp (by injection h2)
    rw [ordCmp_eq_lt.mpr (lt_trans h1 h2)]

theorem lexOpt_lawful {α : Type} {c : α → α → Option Ordering}
    (hc : LawfulCmp c) : LawfulCmp (lexOpt c) where
  eq_iff := by
    intro a b
    induction a generalizing b with
    | nil => cases b <;> simp [lexOpt]
    | cons x xs ih =>
      cases b with
      | nil => simp [lexOpt]
      | cons y ys =>
        simp only [lexOpt]
        intro h
        cases hxy : c x y with
        | none => rw [hxy] at h; cases h
        | some o =>
          cases o with
          | eq =>
            rw [hxy] at h
            rw [hc.eq_iff x y hxy, ih ys h]
          | lt => rw [hxy] at h; cases h
          | gt => rw [hxy] at h; cases h
  refl := by
    intro a
    induction a with
    | nil => rfl
    | cons x xs ih => simp only [lexOpt, hc.refl x]; exact ih
  swap := by
    intro a b
    induction a generalizing b with
    | nil => cases b <;> rfl
    | cons x xs ih =>
      cases b with
      | nil => rfl
      | cons y ys =>
        simp only [lexOpt, hc.swap x y]
        cases hxy : c x y with
        | none => rfl
        | some o => cases o <;> simp [ih ys, Ordering.swap]
  lt_trans := by
    intro a b d
    induction a generalizing b d with
    | nil =>
      intro h1 h2
      cases b with
      | nil => simp [lexOpt] at h1
      | cons y ys =>
        cases d with
        | nil => simp [lexOpt] at h2
        | cons z zs => rfl
    | cons x xs ih =>
      intro h1 h2
      cases b with
      | nil => simp [lexOpt] at h1
      | cons y ys =>
        cases d with
        | nil => simp [lexOpt] at h2
        | cons z zs =>
          simp only [lexOpt] at h1 h2 ⊢
          cases hxy : c x y with
          | none => simp [hxy] at h1
          | some o1 =>
            simp only [hxy] at h1
            cases hyz : c y z with
            | none => simp [hyz] at h2
            | some o2 =>
              simp only [hyz] at h2
              cases o1 with
              | eq =>
                obtain rfl := hc.eq_iff x y hxy
                simp only [hyz]
                cases o2 with
                | eq => exact ih ys zs h1 h2
                | lt => rfl
                | gt => simp at h2
              | lt =>
                cases o2 with
                | eq =>
                  obtain rfl := hc.eq_iff y z hyz
                  simp only [hxy]
                | lt => simp only [hc.lt_trans x y z hxy hyz]
                | gt => simp at h2
              | gt => simp at h1
  -- end

/-- The laws a (possibly key-based) record comparison needs for sorting:
swap symmetry, transitivity of strict outcomes, and left congruence of
equality outcomes.  Unlike `LawfulCmp` it does not demand that an equality
outcome makes the two values equal, only interchangeable for comparison:
Python keys such as `data[0:2]` identify records with equal key slices. -/
structure SortCmp {α : Type} (cmp : α → α → Option Ordering) : Prop where
  swap : ∀ a b : α, cmp b a = (cmp a b).map Ordering.swap
  lt_trans : ∀ a b d : α, cmp a b = some .lt → cmp b d = some .lt → cmp a d = some .lt
  eq_congr : ∀ a b : α, cmp a b = some .eq → ∀ d, cmp a d = cmp b d

theorem SortCmp.of_key {α κ : Type} {c : κ → κ → Option Ordering}
    (hc : LawfulCmp c) (k : α → κ) : SortCmp (fun a b => c (k a) (k b)) where
  swap := fun a b => hc.swap (k a) (k b)
  lt_trans := fun a b d h1 h2 => hc.lt_trans (k a) (k b) (k d) h1 h2
  eq_congr := by
    intro a b h d
    rw [hc.eq_iff (k a) (k b) h]

theorem SortCmp.of_lawful {α : Type} {c : α → α → Option Ordering}
    (hc : LawfulCmp c) : SortCmp c := by
  have h := SortCmp.of_key hc (fun a : α => a)
  exact h

/-- Strict "key of `a` is less than key of `b`", the order Python's sort
queries; a raised comparison counts as not-less (the sort would in fact
abort, so sortedness facts below always assume comparability). -/
def oLt {α : Type} (cmp : α → α → Option Ordering) (a b : α) : Bool :=
  decide (cmp a b = some .lt)

/-- Non-strict comparison, the sortedness relation: `a` does not strictly
exceed `b` (a raised comparison also counts). -/
def oLe {α : Type} (cmp : α → α → Option Ordering) (a b : α) : Prop :=
  cmp a b ≠ some .gt

theorem SortCmp.gt_iff_lt {α : Type} {cmp : α → α → Option Ordering}
    (s : SortCmp cmp) (a b : α) : cmp a b = some .gt ↔ cmp b a = some .lt := by
  rw [s.swap a b]
  cases cmp a b with
  | none => simp
  | some o => cases o <;> simp [Ordering.swap]

theorem SortCmp.le_of_not_lt {α : Type} {cmp : α → α → Option Ordering}
    (s : SortCmp cmp) {a b : α} (h : ¬ cmp a b = some .lt) : oLe cmp b a := by
  intro hgt
  exact h ((s.gt_iff_lt b a).mp hgt)

theorem SortCmp.le_of_lt {α : Type} {cmp : α → α → Option Ordering}
    (s : SortCmp cmp) {a b : α} (h : cmp a b = some .lt) : oLe cmp a b := by
  intro hgt
  rw [h] at hgt
  cases hgt

theorem SortCmp.lt_of_lt_of_le {α : Type} {cmp : α → α → Option Ordering}
    (s : SortCmp cmp) {a b d : α} (h1 : cmp a b = some .lt) (h2 : oLe cmp b d)
    (h3 : (cmp b d).isSome = true) : cmp a d = some .lt := by
  cases hbd : cmp b d with
  | none => rw [hbd] at h3; cases h3
  | some o =>
    cases o with
    | lt => exact s.lt_trans a b d h1 hbd
    | eq =>
      have had : cmp a d = cmp a b := by
        rw [s.swap d a, s.swap b a, s.eq_congr b d hbd a]
      rw [had]
      exact h1
    | gt => exact absurd hbd h2

/-- Stable insertion of `x` into `l`: `x` is placed before the first
element it is strictly below, hence after every element it ties with.
Processing a list left to right with this insertion computes the same list
as any stable sort for the same strict order, in particular Python's. -/
def insertStable {α : Type} (lt : α → α → Bool) (x : α) : List α → List α
  | [] => [x]
  | y :: ys => if lt x y then x :: y :: ys else y :: insertStable lt x ys

/-- Stable sort by the strict order `lt`, the model of Python's
`list.sort` / `sorted`. -/
def stableSort {α : Type} (lt : α → α → Bool) (l : List α) : List α :=
  l.foldl (fun acc y => insertStable lt y acc) []

theorem insertStable_perm {α : Type} (lt : α → α → Bool) (x : α) (l : List α) :
    List.Perm (insertStable lt x l) (x :: l) := by
  induction l with
  | nil => exact List.Perm.refl _
  | cons y ys ih =>
    simp only [insertStable]
    split
    · exact List.Perm.refl _
    · exact ((ih.cons y).trans (List.Perm.swap x y ys))

theorem foldl_insert_perm {α : Type} (lt : α → α → Bool) :
    ∀ (l acc : List α),
      List.Perm (l.foldl (fun acc y => insertStable lt y acc) acc) (acc ++ l) := by
  intro l
  induction l with
  | nil => intro acc; simp
  | cons x xs ih =>
    intro acc
    have h1 : (x :: xs).foldl (fun acc y => insertStable lt y acc) acc
        = xs.foldl (fun acc y => insertStable lt y acc) (insertStable lt x acc) := rfl
    rw [h1]
    refine (ih _).trans ?_
    refine (((insertStable_perm lt x acc).append_right xs).trans ?_)
    exact List.perm_middle.symm

theorem stableSort_perm {α : Type} (lt : α → α → Bool) (l : List α) :
    List.Perm (stableSort lt l) l := by
  have h := foldl_insert_perm lt l []
  simpa [stableSort] using h

theorem mem_stableSort {α : Type} (lt : α → α → Bool) {x : α} {l : List α} :
    x ∈ stableSort lt l ↔ x ∈ l := (stableSort_perm lt l).mem_iff

/-- All pairs drawn from `l` are comparable: Python's sort finishes without
a `TypeError` exactly on such buffers. -/
def cmpAll {α : Type} (cmp : α → α → Option Ordering) (l : List α) : Prop :=
  ∀ a ∈ l, ∀ b ∈ l, (cmp a b).isSome = true

theorem insertStable_pairwise {α : Type} {cmp : α → α → Option Ordering}
    (s : SortCmp cmp) (x : α) (l : List α) (hall : cmpAll cmp (x :: l))
    (hs : l.Pairwise (oLe cmp)) :
    (insertStable (oLt cmp) x l).Pairwise (oLe cmp) := by
  induction l with
  | nil => simp [insertStable]
  | cons y ys ih =>
    simp only [insertStable]
    rcases hlt : oLt cmp x y with _ | _
    · simp only [Bool.false_eq_true, if_false]
      rw [List.pairwise_cons]
      refine ⟨?_, ?_⟩
      · intro w hw
        rw [(insertStable_perm (oLt cmp) x ys).mem_iff] at hw
        rcases List.mem_cons.mp hw with hw | hw
        · rw [hw]
          have : ¬ cmp x y = some .lt := by
            intro hc
            rw [oLt, hc] at hlt
            exact absurd hlt (by decide)
          exact s.le_of_not_lt this
        · exact (List.pairwise_cons.mp hs).1 w hw
      · refine ih ?_ (List.pairwise_cons.mp hs).2
        intro a ha b hb
        refine hall a ?_ b ?_ <;>
          simp only [List.mem_cons] at ha hb ⊢ <;> tauto
    · simp only [if_true]
      have hxylt : cmp x y = some .lt := by
        rw [oLt] at hlt
        exact of_decide_eq_true hlt
      rw [List.pairwise_cons]
      refine ⟨?_, hs⟩
      intro w hw
      rcases List.mem_cons.mp hw with hw | hw
      · rw [hw]
        exact s.le_of_lt hxylt
      · have hyw : oLe cmp y w := (List.pairwise_cons.mp hs).1 w hw
        have hywS : (cmp y w).isSome = true := by
          refine hall y ?_ w ?_ <;> simp [hw]
        exact s.le_of_lt (s.lt_of_lt_of_le hxylt hyw hywS)

theorem foldl_insert_pairwise {α : Type} {cmp : α → α → Option Ordering}
    (s : SortCmp cmp) :
    ∀ (l acc : List α), cmpAll cmp (acc ++ l) → acc.Pairwise (oLe cmp) →
      (l.foldl (fun acc y => insertStable (oLt cmp) y acc) acc).Pairwise (oLe cmp) := by
  intro l
  induction l with
  | nil => intro acc hall hs; simpa using hs
  | cons x xs ih =>
    intro acc hall hs
    refine ih (insertStable (oLt cmp) x acc) ?_ ?_
    · intro a ha b hb
      have hmem : ∀ z, z ∈ insertStable (oLt cmp) x acc ++ xs → z ∈ acc ++ x :: xs := by
        intro z hz
        rcases List.mem_append.mp hz with hz | hz
        · rw [(insertStable_perm (oLt cmp) x acc).mem_iff] at hz
          rcases List.mem_cons.mp hz with hz | hz
          · subst hz; simp
          · simp [hz]
        · simp [hz]
      exact hall a (hmem a ha) b (hmem b hb)
    · refine insertStable_pairwise s x acc ?_ hs
      intro a ha b hb
      have hmem : ∀ z, z ∈ x :: acc → z ∈ acc ++ x :: xs := by
        intro z hz
        rcases List.mem_cons.mp hz with hz | hz
        · subst hz; simp
        · simp [hz]
      exact hall a (hmem a ha) b (hmem b hb)

theorem stableSort_pairwise {α : Type} {cmp : α → α → Option Ordering}
    (s : SortCmp cmp) (l : List α) (hall : cmpAll cmp l) :
    (stableSort (oLt cmp) l).Pairwise (oLe cmp) := by
  refine foldl_insert_pairwise s l [] ?_ ?_
  · simpa using hall
  · simp

/-- Total lexicographic comparison of lists from a total element
comparison; used to model Python's code-point comparison of `str`. -/
def lexCmp {α : Type} (c : α → α → Ordering) : List α → List α → Ordering
  | [], [] => .eq
  | [], _ :: _ => .lt
  | _ :: _, [] => .gt
  | a :: as, b :: bs =>
    match c a b with
    | .eq => lexCmp c as bs
    | .lt => .lt
    | .gt => .gt

theorem lexOpt_some {α : Type} (c : α → α → Ordering) :
    ∀ as bs : List α, lexOpt (fun a b => some (c a b)) as bs = some (lexCmp c as bs) := by
  intro as
  induction as with
  | nil => intro bs; cases bs <;> rfl
  | cons x xs ih =>
    intro bs
    cases bs with
    | nil => rfl
    | cons y ys =>
      simp only [lexOpt, lexCmp]
      cases c x y <;> simp [ih]

/-- Python's comparison of two `str` values: lexicographic by code point.
Modelled over the strings' character lists so that it evaluates in the
kernel. -/
def strCmp (a b : String) : Ordering := lexCmp (fun x y : Char => ordCmp x y) a.data b.data

theorem strData_inj {a b : String} (h : a.data = b.data) : a = b := by
  cases a; cases b; exact congrArg String.mk h

theorem lawful_strCmpOpt : LawfulCmp (fun a b : String => some (strCmp a b)) := by
  have hchar : LawfulCmp (fun a b : Char => some (ordCmp a b)) := lawful_ordCmpOpt
  have hlists := lexOpt_lawful hchar
  constructor
  · intro a b h
    have h' := hlists.eq_iff a.data b.data
    rw [lexOpt_some] at h'
    exact strData_inj (h' h)
  · intro a
    have h' := hlists.refl a.data
    rw [lexOpt_some] at h'
    exact h'
  · intro a b
    have h' := hlists.swap a.data b.data
    rw [lexOpt_some, lexOpt_some] at h'
    exact h'
  · intro a b d h1 h2
    have h' := hlists.lt_trans a.data b.data d.data
    rw [lexOpt_some, lexOpt_some, lexOpt_some] at h'
    exact h' h1 h2

/-- A value produced by `functions.convert` for one `re.split('([0-9]+)')`
segment of a column name: a digit run becomes the integer it denotes, any
other segment the uppercased text. -/
inductive AToken : Type where
  | num (n : Nat)
  | str (s : String)
deriving DecidableEq

/-- Python `str.upper` on the ASCII fragment, character by character.
Outside ASCII, Python's Unicode uppercasing differs from `Char.toUpper`
(it can even change the length); every theorem about uppercased text is
therefore restricted to ASCII strings, where the two agree exactly. -/
def pyUpper (s : String) : String := String.mk (s.data.map Char.toUpper)

/-- Python `int` on a run of decimal digits. -/
def natOfDigits (cs : List Char) : Nat :=
  cs.foldl (fun acc c => 10 * acc + (c.toNat - '0'.toNat)) 0

theorem dropWhile_digit_head {cs : List Char} {r : Char} {rs : List Char}
    (hrest : cs.dropWhile (fun c => !c.isDigit) = r :: rs) : r.isDigit = true := by
  have h0 : 0 < (cs.dropWhile (fun c => !c.isDigit)).length := by
    rw [hrest]; simp
  have hnot := List.dropWhile_get_zero_not (fun c => !c.isDigit) cs h0
  have hget : (cs.dropWhile (fun c => !c.isDigit)).get ⟨0, h0⟩ = r := by
    simp [List.get_eq_getElem, hrest]
  rw [hget] at hnot
  simpa using hnot

theorem dropWhile_digit_len {cs : List Char} {r : Char} {rs : List Char}
    (hrest : cs.dropWhile (fun c => !c.isDigit) = r :: rs) :
    ((r :: rs).dropWhile Char.isDigit).length < cs.length := by
  have h1 : ((r :: rs).dropWhile Char.isDigit).length ≤ rs.length := by
    rw [List.dropWhile_cons_of_pos (dropWhile_digit_head hrest)]
    exact (List.dropWhile_sublist _).length_le
  have h2 : (r :: rs).length ≤ cs.length := by
    rw [← hrest]
    exact (List.dropWhile_sublist _).length_le
  simp only [List.length_cons] at h2
  omega

/-- The token list `[convert(seg) for seg in re.split('([0-9]+)', name)]`
of `functions.sort_alphanumeric`, written with explicit fuel so that it
both recurses structurally (the kernel can evaluate it) and follows the
split: `re.split` with a captured group yields the (possibly empty)
non-digit text before each maximal digit run, the run itself, and the
trailing (possibly empty) non-digit text.  Any fuel above the character
count gives the same value (`alphaTokensF_fuel`); `alphaTokens` passes
`cs.length + 1`, which always suffices.  This is the ASCII-domain total
tokenizer: `convert` on literal segments is taken to uppercase, which is
what Python does exactly when no character of the segment passes the
Unicode `str.isdigit`.  The faithful, possibly-failing tokenizer is
`alphaTokensOptF` below; on ASCII input the two agree
(`alphaTokensOptF_ascii`). -/
def alphaTokensF : Nat → List Char → List AToken
  | 0, _ => []
  | fuel + 1, cs =>
    AToken.str (pyUpper (String.mk (cs.takeWhile (fun c => !c.isDigit)))) ::
      (match cs.dropWhile (fun c => !c.isDigit) with
       | [] => []
       | r :: rs =>
         AToken.num (natOfDigits ((r :: rs).takeWhile Char.isDigit)) ::
           alphaTokensF fuel ((r :: rs).dropWhile Char.isDigit))

def alphaTokens (cs : List Char) : List AToken := alphaTokensF (cs.length + 1) cs

theorem alphaTokensF_fuel :
    ∀ (n m : Nat) (cs : List Char), cs.length < n → cs.length < m →
      alphaTokensF n cs = alphaTokensF m cs := by
  intro n
  induction n with
  | zero => intro m cs h _; exact absurd h (Nat.not_lt_zero _)
  | succ n ih =>
    intro m cs hn hm
    cases m with
    | zero => exact absurd hm (Nat.not_lt_zero _)
    | succ m =>
      simp only [alphaTokensF]
      cases hrest : cs.dropWhile (fun c => !c.isDigit) with
      | nil => rfl
      | cons r rs =>
        have hlen := dropWhile_digit_len hrest
        show AToken.str _ :: AToken.num _ :: alphaTokensF n ((r :: rs).dropWhile Char.isDigit)
            = AToken.str _ :: AToken.num _ :: alphaTokensF m ((r :: rs).dropWhile Char.isDigit)
        rw [ih m ((r :: rs).dropWhile Char.isDigit) (by omega) (by omega)]

theorem alphaTokens_eq (cs : List Char) :
    alphaTokens cs =
      AToken.str (pyUpper (String.mk (cs.takeWhile (fun c => !c.isDigit)))) ::
        (match cs.dropWhile (fun c => !c.isDigit) with
         | [] => []
         | r :: rs =>
           AToken.num (natOfDigits ((r :: rs).takeWhile Char.isDigit)) ::
             alphaTokens ((r :: rs).dropWhile Char.isDigit)) := by
  unfold alphaTokens
  simp only [alphaTokensF]
  cases hrest : cs.dropWhile (fun c => !c.isDigit) with
  | nil => rfl
  | cons r rs =>
    have hlen := dropWhile_digit_len hrest
    show AToken.str _ :: AToken.num _ :: alphaTokensF cs.length ((r :: rs).dropWhile Char.isDigit)
        = AToken.str _ :: AToken.num _ :: alphaTokens ((r :: rs).dropWhile Char.isDigit)
    unfold alphaTokens
    rw [alphaTokensF_fuel cs.length (((r :: rs).dropWhile Char.isDigit).length + 1)
      ((r :: rs).dropWhile Char.isDigit) (by omega) (by omega)]

/-- The sort key of `functions.sort_alphanumeric` applied to one string. -/
def alphanumKey (s : String) : List AToken := alphaTokens s.data

/-- Python's comparison of two `convert` outcomes: integers compare
numerically, strings by code point, and an integer against a string raises
`TypeError` (`none`). -/
def tokenCmp (a b : AToken) : Option Ordering :=
  match a, b with
  | .num x, .num y => some (ordCmp x y)
  | .str x, .str y => some (strCmp x y)
  | _, _ => none

theorem lawful_tokenCmp : LawfulCmp tokenCmp where
  eq_iff := by
    intro a b h
    cases a with
    | num x =>
      cases b with
      | num y => exact congrArg AToken.num (ordCmp_eq_eq.mp (Option.some.inj h))
      | str y => exact absurd h (by simp [tokenCmp])
    | str x =>
      cases b with
      | num y => exact absurd h (by simp [tokenCmp])
      | str y => exact congrArg AToken.str (lawful_strCmpOpt.eq_iff x y h)
  refl := by
    intro a
    cases a with
    | num x => simp only [tokenCmp]; rw [ordCmp_eq_eq.mpr rfl]
    | str x => exact lawful_strCmpOpt.refl x
  swap := by
    intro a b
    cases a with
    | num x =>
      cases b with
      | num y => simp only [tokenCmp, Option.map]; rw [ordCmp_swap]
      | str y => rfl
    | str x =>
      cases b with
      | num y => rfl
      | str y =>
        simp only [tokenCmp, Option.map]
        exact congrArg some (Option.some.inj (lawful_strCmpOpt.swap x y))
  lt_trans := by
    intro a b d h1 h2
    cases a with
    | num x =>
      cases b with
      | str y => exact absurd h1 (by simp [tokenCmp])
      | num y =>
        cases d with
        | str z => exact absurd h2 (by simp [tokenCmp])
        | num z =>
          have hxy := ordCmp_eq_lt.mp (Option.some.inj h1)
          have hyz := ordCmp_eq_lt.mp (Option.some.inj h2)
          simp only [tokenCmp]
          rw [ordCmp_eq_lt.mpr (lt_trans hxy hyz)]
    | str x =>
      cases b with
      | num y => exact absurd h1 (by simp [tokenCmp])
      | str y =>
        cases d with
        | num z => exact absurd h2 (by simp [tokenCmp])
        | str z => exact lawful_strCmpOpt.lt_trans x y z h1 h2

/-- Expected-kind alternation: `true` means the next token must be a
string segment, `false` an integer segment.  `re.split` output always
alternates text, digits, text, digits, … starting with text. -/
def tokensAlt : Bool → List AToken → Bool
  | _, [] => true
  | true, AToken.str _ :: rest => tokensAlt false rest
  | false, AToken.num _ :: rest => tokensAlt true rest
  | true, AToken.num _ :: _ => false
  | false, AToken.str _ :: _ => false

theorem alphaTokens_alt_aux :
    ∀ (n : Nat) (cs : List Char), cs.length ≤ n → tokensAlt true (alphaTokens cs) = true := by
  intro n
  induction n with
  | zero =>
    intro cs h
    have : cs = [] := List.length_eq_zero.mp (Nat.le_zero.mp h)
    subst this
    rfl
  | succ n ih =>
    intro cs hlen
    rw [alphaTokens_eq]
    cases hrest : cs.dropWhile (fun c => !c.isDigit) with
    | nil => rfl
    | cons r rs =>
      have hl := dropWhile_digit_len hrest
      simpa [tokensAlt] using ih ((r :: rs).dropWhile Char.isDigit) (by omega)

theorem alphaTokens_alt (cs : List Char) : tokensAlt true (alphaTokens cs) = true :=
  alphaTokens_alt_aux cs.length cs (Nat.le_refl _)

theorem tokenCmp_isSome_of_alt :
    ∀ (a : List AToken) (f : Bool) (b : List AToken), tokensAlt f a = true →
      tokensAlt f b = true → (lexOpt tokenCmp a b).isSome = true := by
  intro a
  induction a with
  | nil => intro f b _ _; cases b <;> simp [lexOpt]
  | cons t ts ih =>
    intro f b ha hb
    cases b with
    | nil => simp [lexOpt]
    | cons u us =>
      cases f with
      | true =>
        cases t with
        | num x => simp [tokensAlt] at ha
        | str x =>
          cases u with
          | num y => simp [tokensAlt] at hb
          | str y =>
            simp only [tokensAlt] at ha hb
            simp only [lexOpt, tokenCmp]
            cases strCmp x y with
            | eq => exact ih false us ha hb
            | lt => rfl
            | gt => rfl
      | false =>
        cases t with
        | str x => simp [tokensAlt] at ha
        | num x =>
          cases u with
          | str y => simp [tokensAlt] at hb
          | num y =>
            simp only [tokensAlt] at ha hb
            simp only [lexOpt, tokenCmp]
            cases ordCmp x y with
            | eq => exact ih true us ha hb
            | lt => rfl
            | gt => rfl

/-- The comparison Python performs between two column names inside
`sorted(..., key=alphanum_key)`. -/
def strKeyCmp (s t : String) : Option Ordering :=
  lexOpt tokenCmp (alphanumKey s) (alphanumKey t)

theorem strKeyCmp_isSome (s t : String) : (strKeyCmp s t).isSome = true :=
  tokenCmp_isSome_of_alt (alphanumKey s) true (alphanumKey t)
    (alphaTokens_alt s.data) (alphaTokens_alt t.data)

theorem sortCmp_strKeyCmp : SortCmp strKeyCmp :=
  SortCmp.of_key (lexOpt_lawful lawful_tokenCmp) alphanumKey

/-- The decimal value Python's `int` assigns to one character, on the
fragment of the Unicode tables this development exercises: the ASCII
digits and the Arabic-Indic digits U+0660 to U+0669.  Characters outside
the fragment are classified as non-digits; theorems that quantify over
arbitrary strings are therefore stated for ASCII strings, on which the
fragment is complete. -/
def uniDigitVal (c : Char) : Option Nat :=
  if 48 ≤ c.toNat ∧ c.toNat ≤ 57 then some (c.toNat - 48)
  else if 1632 ≤ c.toNat ∧ c.toNat ≤ 1641 then some (c.toNat - 1632)
  else none

/-- Python's per-character `str.isdigit`: true on every decimal digit and
additionally on digit-valued characters `int` rejects — of those the
fragment carries the superscripts U+00B2, U+00B3 and U+00B9. -/
def uniIsDigitChar (c : Char) : Bool :=
  (uniDigitVal c).isSome || c.toNat == 178 || c.toNat == 179 || c.toNat == 185

/-- Python's `str.isdigit` on a whole segment: nonempty and every
character a digit. -/
def pyStrIsDigit (cs : List Char) : Bool :=
  !cs.isEmpty && cs.all uniIsDigitChar

/-- Python's `int` on a segment whose `isdigit` check passed: the decimal
value when every character has one, `none` (a raised `ValueError`) when
some digit character — such as the superscript two — has no decimal
value. -/
def pyIntOfDigits (cs : List Char) : Option Nat :=
  cs.foldl (fun acc c => acc.bind (fun n => (uniDigitVal c).map (fun d => 10 * n + d))) (some 0)

/-- `functions.convert` on one `re.split` segment with its failure path
explicit: `int(element) if element.isdigit() else element.upper()`, where
`int` can raise `ValueError` (`none`). -/
def convertSeg (cs : List Char) : Option AToken :=
  if pyStrIsDigit cs then (pyIntOfDigits cs).map AToken.num
  else some (AToken.str (pyUpper (String.mk cs)))

/-- The faithful, possibly-failing token list of one column name:
`re.split('([0-9]+)')` splits on ASCII digit runs only — the same segment
structure as `alphaTokensF` — but `convert` applies the Unicode-aware
`str.isdigit` and `int` to every segment, so a non-ASCII digit segment
can become a number token (breaking the text/number alternation) or
raise `ValueError`. -/
def alphaTokensOptF : Nat → List Char → Option (List AToken)
  | 0, _ => none
  | fuel + 1, cs =>
    (convertSeg (cs.takeWhile (fun c => !c.isDigit))).bind (fun t =>
      match cs.dropWhile (fun c => !c.isDigit) with
      | [] => some [t]
      | r :: rs =>
        (convertSeg ((r :: rs).takeWhile Char.isDigit)).bind (fun d =>
          (alphaTokensOptF fuel ((r :: rs).dropWhile Char.isDigit)).map
            (fun rest => t :: d :: rest)))

/-- The possibly-failing sort key of one string: `none` when building the
key raises `ValueError`. -/
def alphanumKeyOpt (s : String) : Option (List AToken) :=
  alphaTokensOptF (s.data.length + 1) s.data

/-- The comparison Python performs between the keys of two column names,
with key-construction failure carried along. -/
def keyCmpOpt (s t : String) : Option Ordering :=
  match alphanumKeyOpt s, alphanumKeyOpt t with
  | some a, some b => lexOpt tokenCmp a b
  | _, _ => none

/-- The string draws only on 7-bit code points, on which the modelled
Unicode fragment (`uniDigitVal`, `uniIsDigitChar`, `Char.toUpper`) agrees
exactly with Python's `str.isdigit`, `int` and `str.upper`. -/
def asciiString (s : String) : Prop := ∀ c ∈ s.data, c.toNat < 128

instance decAsciiString (s : String) : Decidable (asciiString s) :=
  inferInstanceAs (Decidable (∀ c ∈ s.data, c.toNat < 128))

theorem isDigit_iff_toNat (c : Char) :
    c.isDigit = true ↔ 48 ≤ c.toNat ∧ c.toNat ≤ 57 := by
  simp [Char.isDigit, Char.toNat, ge_iff_le]
  exact Iff.rfl

theorem uniDigitVal_of_digit {c : Char} (h : c.isDigit = true) :
    uniDigitVal c = some (c.toNat - 48) := by
  unfold uniDigitVal
  rw [if_pos ((isDigit_iff_toNat c).mp h)]

theorem uniDigitVal_ascii_not_digit {c : Char} (hc : c.toNat < 128)
    (h : c.isDigit = false) : uniDigitVal c = none := by
  have hnd : ¬ (48 ≤ c.toNat ∧ c.toNat ≤ 57) := by
    intro hin
    rw [(isDigit_iff_toNat c).mpr hin] at h
    cases h
  unfold uniDigitVal
  rw [if_neg hnd, if_neg (by omega)]

theorem uniIsDigitChar_ascii {c : Char} (hc : c.toNat < 128) :
    uniIsDigitChar c = c.isDigit := by
  cases hd : c.isDigit with
  | true =>
    unfold uniIsDigitChar
    rw [uniDigitVal_of_digit hd]
    rfl
  | false =>
    unfold uniIsDigitChar
    rw [uniDigitVal_ascii_not_digit hc hd]
    have h2 : (c.toNat == 178) = false := by simp; omega
    have h3 : (c.toNat == 179) = false := by simp; omega
    have h5 : (c.toNat == 185) = false := by simp; omega
    rw [h2, h3, h5]
    rfl

theorem pyIntOfDigits_digits :
    ∀ (cs : List Char), (∀ c ∈ cs, c.isDigit = true) → ∀ n : Nat,
      cs.foldl (fun acc c => acc.bind (fun m => (uniDigitVal c).map (fun d => 10 * m + d)))
          (some n)
        = some (cs.foldl (fun acc c => 10 * acc + (c.toNat - '0'.toNat)) n) := by
  intro cs
  induction cs with
  | nil => intro _ n; rfl
  | cons c cs ih =>
    intro h n
    have hc := h c (List.mem_cons_self c cs)
    simp only [List.foldl_cons]
    have hstep : (some n).bind (fun m => (uniDigitVal c).map (fun d => 10 * m + d))
        = some (10 * n + (c.toNat - '0'.toNat)) := by
      show (uniDigitVal c).map (fun d => 10 * n + d) = _
      rw [uniDigitVal_of_digit hc]
      rfl
    rw [hstep]
    exact ih (fun x hx => h x (List.mem_cons_of_mem c hx)) _

theorem pyIntOfDigits_eq_natOfDigits {cs : List Char}
    (h : ∀ c ∈ cs, c.isDigit = true) : pyIntOfDigits cs = some (natOfDigits cs) :=
  pyIntOfDigits_digits cs h 0

theorem pyStrIsDigit_digits {cs : List Char} (hne : cs ≠ [])
    (h : ∀ c ∈ cs, c.isDigit = true) : pyStrIsDigit cs = true := by
  cases cs with
  | nil => exact absurd rfl hne
  | cons c cs =>
    simp only [pyStrIsDigit, List.isEmpty_cons, Bool.not_false, Bool.true_and,
      List.all_eq_true]
    intro x hx
    simp [uniIsDigitChar, uniDigitVal_of_digit (h x hx)]

theorem pyStrIsDigit_ascii_text {cs : List Char} (hascii : ∀ c ∈ cs, c.toNat < 128)
    (h : ∀ c ∈ cs, c.isDigit = false) : pyStrIsDigit cs = false := by
  cases cs with
  | nil => rfl
  | cons c cs =>
    have hc : uniIsDigitChar c = false := by
      rw [uniIsDigitChar_ascii (hascii c (List.mem_cons_self c cs))]
      exact h c (List.mem_cons_self c cs)
    simp [pyStrIsDigit, hc]

theorem convertSeg_text {cs : List Char} (hascii : ∀ c ∈ cs, c.toNat < 128)
    (h : ∀ c ∈ cs, c.isDigit = false) :
    convertSeg cs = some (AToken.str (pyUpper (String.mk cs))) := by
  simp [convertSeg, pyStrIsDigit_ascii_text hascii h]

theorem convertSeg_digits {cs : List Char} (hne : cs ≠ [])
    (h : ∀ c ∈ cs, c.isDigit = true) :
    convertSeg cs = some (AToken.num (natOfDigits cs)) := by
  simp [convertSeg, pyStrIsDigit_digits hne h, pyIntOfDigits_eq_natOfDigits h]

theorem alphaTokensOptF_ascii :
    ∀ (n : Nat) (cs : List Char), cs.length < n → (∀ c ∈ cs, c.toNat < 128) →
      alphaTokensOptF n cs = some (alphaTokensF n cs) := by
  intro n
  induction n with
  | zero => intro cs h _; exact absurd h (Nat.not_lt_zero _)
  | succ n ih =>
    intro cs hlen hascii
    have hlit : convertSeg (cs.takeWhile (fun c => !c.isDigit))
        = some (AToken.str (pyUpper (String.mk (cs.takeWhile (fun c => !c.isDigit))))) := by
      refine convertSeg_text ?_ ?_
      · intro c hcmem
        exact hascii c ((List.takeWhile_sublist _).subset hcmem)
      · intro c hcmem
        simpa using List.mem_takeWhile_imp hcmem
    simp only [alphaTokensOptF, alphaTokensF, hlit, Option.some_bind]
    cases hrest : cs.dropWhile (fun c => !c.isDigit) with
    | nil => rfl
    | cons r rs =>
      have hr := dropWhile_digit_head hrest
      have hrun_ne : (r :: rs).takeWhile Char.isDigit ≠ [] := by
        rw [List.takeWhile_cons_of_pos hr]
        exact List.cons_ne_nil _ _
      have hrun_dig : ∀ c ∈ (r :: rs).takeWhile Char.isDigit, c.isDigit = true :=
        fun c hc => List.mem_takeWhile_imp hc
      have hsub : ∀ c ∈ (r :: rs).dropWhile Char.isDigit, c.toNat < 128 := by
        intro c hc
        apply hascii
        have h1 : c ∈ r :: rs := (List.dropWhile_sublist _).subset hc
        rw [← hrest] at h1
        exact (List.dropWhile_sublist _).subset h1
      have hlen2 : ((r :: rs).dropWhile Char.isDigit).length < n := by
        have := dropWhile_digit_len hrest
        omega
      show (convertSeg ((r :: rs).takeWhile Char.isDigit)).bind (fun d =>
            Option.map
              (fun rest =>
                AToken.str (pyUpper (String.mk (cs.takeWhile (fun c => !c.isDigit))))
                  :: d :: rest)
              (alphaTokensOptF n ((r :: rs).dropWhile Char.isDigit)))
          = some (AToken.str (pyUpper (String.mk (cs.takeWhile (fun c => !c.isDigit)))) ::
              AToken.num (natOfDigits ((r :: rs).takeWhile Char.isDigit)) ::
                alphaTokensF n ((r :: rs).dropWhile Char.isDigit))
      rw [convertSeg_digits hrun_ne hrun_dig, ih _ hlen2 hsub]
      rfl

theorem alphanumKeyOpt_ascii {s : String} (h : asciiString s) :
    alphanumKeyOpt s = some (alphanumKey s) :=
  alphaTokensOptF_ascii (s.data.length + 1) s.data (Nat.lt_succ_self _) h

theorem keyCmpOpt_ascii {s t : String} (hs : asciiString s) (ht : asciiString t) :
    keyCmpOpt s t = strKeyCmp s t := by
  unfold keyCmpOpt strKeyCmp
  rw [alphanumKeyOpt_ascii hs, alphanumKeyOpt_ascii ht]

/-- `functions.sort_alphanumeric`: Python's stable `sorted` over the
alphanumeric key, `reverse=descending`.  `reverse=True` sorts by the
reversed strict order while keeping tied elements in input order, which is
insertion by the flipped comparison. -/
def sortAlphanumeric (strings : List String) (descending : Bool) : List String :=
  if descending then stableSort (oLt (fun s t => strKeyCmp t s)) strings
  else stableSort (oLt strKeyCmp) strings

/-- One key comparison as Python sees it: `none` when comparing the keys
raises `TypeError`, otherwise whether the first key is strictly less. -/
def ltOptOf {α : Type} (cmp : α → α → Option Ordering) (a b : α) : Option Bool :=
  (cmp a b).map (fun o => decide (o = Ordering.lt))

/-- Stable insertion in the possibly-raising world: the first raised
comparison aborts the whole sort, as in Python. -/
def insertStableOpt {α : Type} (lt : α → α → Option Bool) (x : α) :
    List α → Option (List α)
  | [] => some [x]
  | y :: ys =>
    match lt x y with
    | none => none
    | some true => some (x :: y :: ys)
    | some false => (insertStableOpt lt x ys).map (fun r => y :: r)

/-- Possibly-raising stable sort: Python's `sorted`, returning `none` when
some needed comparison raises. -/
def stableSortOpt {α : Type} (lt : α → α → Option Bool) (l : List α) : Option (List α) :=
  l.foldl (fun acc x => acc.bind (fun a => insertStableOpt lt x a)) (some [])

theorem foldl_bind_none {α β : Type} (f : α → β → Option β) :
    ∀ l : List α, l.foldl (fun acc x => acc.bind (fun b => f x b)) none = none := by
  intro l
  induction l with
  | nil => rfl
  | cons x xs ih =>
    simp only [List.foldl_cons, Option.none_bind]
    exact ih

theorem ltOptOf_some {α : Type} {cmp : α → α → Option Ordering} {a b : α} {c : Bool}
    (h : ltOptOf cmp a b = some c) : oLt cmp a b = c := by
  unfold ltOptOf at h
  cases hc : cmp a b with
  | none => rw [hc] at h; cases h
  | some o =>
    rw [hc] at h
    have hoc : decide (o = Ordering.lt) = c := by simpa using h
    unfold oLt
    rw [hc]
    rw [show decide (some o = some Ordering.lt) = decide (o = Ordering.lt) from by
      cases o <;> rfl]
    exact hoc

theorem insertStableOpt_agree {α : Type} {P : α → Prop} {ltO : α → α → Option Bool}
    {ltB : α → α → Bool} (hagree : ∀ a b, P a → P b → ltO a b = some (ltB a b))
    {x : α} (hx : P x) :
    ∀ l : List α, (∀ y ∈ l, P y) → insertStableOpt ltO x l = some (insertStable ltB x l) := by
  intro l
  induction l with
  | nil => intro _; rfl
  | cons y ys ih =>
    intro hl
    have hxy := hagree x y hx (hl y (List.mem_cons_self y ys))
    cases hb : ltB x y with
    | true => simp [insertStableOpt, insertStable, hxy, hb]
    | false =>
      simp [insertStableOpt, insertStable, hxy, hb,
        ih (fun z hz => hl z (List.mem_cons_of_mem y hz))]

theorem stableSortOpt_agree {α : Type} {P : α → Prop} {ltO : α → α → Option Bool}
    {ltB : α → α → Bool} (hagree : ∀ a b, P a → P b → ltO a b = some (ltB a b)) :
    ∀ (l acc : List α), (∀ x ∈ l, P x) → (∀ x ∈ acc, P x) →
      l.foldl (fun acc x => acc.bind (fun a => insertStableOpt ltO x a)) (some acc)
        = some (l.foldl (fun acc x => insertStable ltB x acc) acc) := by
  intro l
  induction l with
  | nil => intro acc _ _; rfl
  | cons x xs ih =>
    intro acc hl hacc
    have hx : P x := hl x (List.mem_cons_self x xs)
    have hstep := insertStableOpt_agree hagree hx acc hacc
    have hacc2 : ∀ z ∈ insertStable ltB x acc, P z := by
      intro z hz
      have hz2 := (insertStable_perm ltB x acc).mem_iff.mp hz
      rcases List.mem_cons.mp hz2 with rfl | hz3
      · exact hx
      · exact hacc z hz3
    simp only [List.foldl_cons, Option.some_bind]
    rw [hstep]
    exact ih _ (fun z hz => hl z (List.mem_cons_of_mem x hz)) hacc2

theorem insertStableOpt_some_eq {α : Type} {cmp : α → α → Option Ordering} {x : α} :
    ∀ {l r : List α}, insertStableOpt (ltOptOf cmp) x l = some r →
      r = insertStable (oLt cmp) x l := by
  intro l
  induction l with
  | nil =>
    intro r h
    simp only [insertStableOpt] at h
    injection h with h2
    rw [← h2]
    rfl
  | cons y ys ih =>
    intro r h
    simp only [insertStableOpt] at h
    cases hc : ltOptOf cmp x y with
    | none => rw [hc] at h; cases h
    | some b =>
      rw [hc] at h
      have hlt := ltOptOf_some hc
      cases b with
      | true =>
        injection h with h2
        rw [← h2]
        simp [insertStable, hlt]
      | false =>
        cases hrec : insertStableOpt (ltOptOf cmp) x ys with
        | none => rw [hrec] at h; cases h
        | some r2 =>
          rw [hrec] at h
          injection h with h2
          rw [← h2, ih hrec]
          simp [insertStable, hlt]

theorem stableSortOpt_some_eq {α : Type} {cmp : α → α → Option Ordering} :
    ∀ {l acc r : List α},
      l.foldl (fun acc x => acc.bind (fun a => insertStableOpt (ltOptOf cmp) x a)) (some acc)
          = some r →
      r = l.foldl (fun acc x => insertStable (oLt cmp) x acc) acc := by
  intro l
  induction l with
  | nil =>
    intro acc r h
    simp only [List.foldl_nil] at h ⊢
    injection h with h2
    exact h2.symm
  | cons x xs ih =>
    intro acc r h
    simp only [List.foldl_cons, Option.some_bind] at h
    cases hins : insertStableOpt (ltOptOf cmp) x acc with
    | none =>
      rw [hins, foldl_bind_none (fun x a => insertStableOpt (ltOptOf cmp) x a)] at h
      cases h
    | some acc2 =>
      rw [hins] at h
      rw [List.foldl_cons, ← insertStableOpt_some_eq hins]
      exact ih h

theorem stableSortOpt_some {α : Type} {cmp : α → α → Option Ordering} {l r : List α}
    (h : stableSortOpt (ltOptOf cmp) l = some r) : r = stableSort (oLt cmp) l :=
  stableSortOpt_some_eq h

theorem stableSortOpt_of_cmpAll {α : Type} {cmp : α → α → Option Ordering} {l : List α}
    (h : cmpAll cmp l) :
    stableSortOpt (ltOptOf cmp) l = some (stableSort (oLt cmp) l) := by
  have hagree : ∀ a b : α, a ∈ l → b ∈ l → ltOptOf cmp a b = some (oLt cmp a b) := by
    intro a b ha hb
    obtain ⟨o, ho⟩ := Option.isSome_iff_exists.mp (h a ha b hb)
    unfold ltOptOf oLt
    rw [ho]
    cases o <;> rfl
  exact stableSortOpt_agree hagree l [] (fun x hx => hx)
    (fun x hx => (List.not_mem_nil x hx).elim)

theorem mapM_isSome {α β : Type} (f : α → Option β) :
    ∀ l : List α, (∀ x ∈ l, (f x).isSome = true) → ∃ r, l.mapM f = some r := by
  intro l
  induction l with
  | nil => intro _; exact ⟨[], rfl⟩
  | cons x xs ih =>
    intro h
    obtain ⟨y, hy⟩ := Option.isSome_iff_exists.mp (h x (List.mem_cons_self x xs))
    obtain ⟨r, hr⟩ := ih (fun z hz => h z (List.mem_cons_of_mem x hz))
    refine ⟨y :: r, ?_⟩
    rw [List.mapM_cons, hy, hr]
    rfl

/-- Python's `sorted(strings, key=alphanum_key, reverse=descending)` with
both failure paths explicit: `sorted` first builds every element's key —
a `ValueError` from `int` aborts here — and then sorts, where comparing a
number token against a string token raises `TypeError`. -/
def sortAlphanumericOpt (strings : List String) (descending : Bool) : Option (List String) :=
  (strings.mapM alphanumKeyOpt).bind (fun _ =>
    if descending then stableSortOpt (fun s t => ltOptOf keyCmpOpt t s) strings
    else stableSortOpt (ltOptOf keyCmpOpt) strings)

theorem sortAlphanumericOpt_ascii (strings : List String) (descending : Bool)
    (h : ∀ s ∈ strings, asciiString s) :
    sortAlphanumericOpt strings descending = some (sortAlphanumeric strings descending) := by
  obtain ⟨ks, hks⟩ := mapM_isSome alphanumKeyOpt strings
    (fun s hs => by rw [alphanumKeyOpt_ascii (h s hs)]; rfl)
  have hagree : ∀ a b : String, asciiString a → asciiString b →
      ltOptOf keyCmpOpt a b = some (oLt strKeyCmp a b) := by
    intro a b ha hb
    unfold ltOptOf oLt
    rw [keyCmpOpt_ascii ha hb]
    obtain ⟨o, ho⟩ := Option.isSome_iff_exists.mp (strKeyCmp_isSome a b)
    rw [ho]
    cases o <;> rfl
  unfold sortAlphanumericOpt sortAlphanumeric
  rw [hks, Option.some_bind]
  split
  · exact stableSortOpt_agree (fun a b ha hb => hagree b a hb ha) strings [] h
      (fun x hx => (List.not_mem_nil x hx).elim)
  · exact stableSortOpt_agree hagree strings [] h
      (fun x hx => (List.not_mem_nil x hx).elim)

theorem sortAlphanumeric_perm (strings : List String) (descending : Bool) :
    List.Perm (sortAlphanumeric strings descending) strings := by
  unfold sortAlphanumeric
  split <;> exact stableSort_perm _ strings

theorem sortAlphanumeric_asc_pairwise (strings : List String) :
    (sortAlphanumeric strings false).Pairwise (oLe strKeyCmp) := by
  have h := stableSort_pairwise sortCmp_strKeyCmp strings
    (fun a _ b _ => strKeyCmp_isSome a b)
  simpa [sortAlphanumeric] using h

/-- The spec's testable property 1: numeric runs compare by value, not
lexicographically. -/
theorem sortAlphanumeric_numeric_runs :
    sortAlphanumeric ["D1", "D2", "D10", "D9"] false = ["D1", "D2", "D9", "D10"] := by
  decide

/-- C4 as stated fails.  `convert` applies Python's Unicode-aware
`str.isdigit` and `int` to the segments that `re.split('([0-9]+)')` —
which recognises only ASCII digits — left as text.  The Arabic-Indic
digit U+0663 therefore becomes the integer token `3`; its token list
`[3]` mismatches `[str "A"]` in type at position 0 and the comparison
raises `TypeError` instead of falling back to string comparison, so
sorting that two-element list raises.  The superscript two (U+00B2)
passes `isdigit` but `int` rejects it, so building the key itself raises
`ValueError` even for a single-element list.  Either way the exception
propagates out of `sorted`: `sort_alphanumeric` is not total on all
lists of strings. -/
theorem c4_counterexample_unicode_digits :
    alphanumKeyOpt "٣" = some [AToken.num 3] ∧
    alphanumKeyOpt "A" = some [AToken.str "A"] ∧
    keyCmpOpt "٣" "A" = none ∧
    sortAlphanumericOpt ["٣", "A"] false = none ∧
    alphanumKeyOpt "²" = none ∧
    sortAlphanumericOpt ["²"] false = none := by
  decide

/-- C4 (amended): the code contains no fallback to string comparison.
Restricted to ASCII column names — where `re.split`'s `[0-9]` and
`str.isdigit` agree — the token lists alternate text and number segments
in lockstep, every key builds and every performed comparison succeeds,
and the possibly-raising Python sort is total: it returns exactly the
value of the total sorting function. -/
theorem c4_sort_total_ascii (strings : List String) (descending : Bool)
    (h : ∀ s ∈ strings, asciiString s) :
    sortAlphanumericOpt strings descending = some (sortAlphanumeric strings descending) :=
  sortAlphanumericOpt_ascii strings descending h

/-- C4 witness: the amended totality at a concrete ASCII input. -/
theorem c4_sort_total_ascii_witness :
    sortAlphanumericOpt ["D1", "D2", "D10", "D9"] false
      = some (sortAlphanumeric ["D1", "D2", "D10", "D9"] false) :=
  c4_sort_total_ascii ["D1", "D2", "D10", "D9"] false (by decide)


/-- The inner loop of `ProcessData.sort_headers` for one file: add each
header not seen before.  It also serves as the model of `set(file_headers)`
for the first file, enumerated in first-occurrence order — Python's `set`
fixes no enumeration order, and every property proved about the gathered
headers (membership, freedom from duplicates, sortedness of the result) is
independent of the enumeration chosen here. -/
def addUnseen (seen : List String) (hdrs : List String) : List String :=
  hdrs.foldl (fun acc h => if h ∈ acc then acc else acc ++ [h]) seen

/-- The header gathering of `ProcessData.sort_headers`: the first file's
headers seed the set unfiltered, later files contribute unseen names.
With no file at all the loop body never runs, `set_headers` is never
bound, and `list(set_headers)` raises `NameError`: that is the `none`
outcome. -/
def gatherHeaders (headersByFile : List (List String)) : Option (List String) :=
  match headersByFile with
  | [] => none
  | first :: rest => some (rest.foldl addUnseen (addUnseen [] first))

/-- The same union as a total function of the file list, used to state
engine facts uniformly (it agrees with `gatherHeaders` whenever at least
one file exists). -/
def gatherList (headersByFile : List (List String)) : List String :=
  headersByFile.foldl addUnseen []

/-- `ProcessData.sort_headers` with its failure paths explicit: gather
(`none` models the `NameError` when no file exists, since `set_headers`
is never bound), then `sort_alphanumeric`, whose key construction and
comparisons can themselves raise (`ValueError` / `TypeError`). -/
def sortHeadersOpt (headersByFile : List (List String)) : Option (List String) :=
  (gatherHeaders headersByFile).bind (fun hs => sortAlphanumericOpt hs false)

theorem gatherHeaders_eq_gatherList (first : List String) (rest : List (List String)) :
    gatherHeaders (first :: rest) = some (gatherList (first :: rest)) := rfl

theorem mem_addUnseen (x : String) :
    ∀ (hdrs seen : List String), x ∈ addUnseen seen hdrs ↔ x ∈ seen ∨ x ∈ hdrs := by
  intro hdrs
  induction hdrs with
  | nil => intro seen; simp [addUnseen]
  | cons h hs ih =>
    intro seen
    show x ∈ addUnseen (if h ∈ seen then seen else seen ++ [h]) hs ↔ _
    rw [ih]
    split
    · rename_i hmem
      rw [List.mem_cons]
      constructor
      · rintro (hx | hx)
        · exact Or.inl hx
        · exact Or.inr (Or.inr hx)
      · rintro (hx | hx | hx)
        · exact Or.inl hx
        · exact Or.inl (hx ▸ hmem)
        · exact Or.inr hx
    · rw [List.mem_append, List.mem_singleton, List.mem_cons]
      tauto

theorem nodup_addUnseen :
    ∀ (hdrs seen : List String), seen.Nodup → (addUnseen seen hdrs).Nodup := by
  intro hdrs
  induction hdrs with
  | nil => intro seen h; exact h
  | cons h hs ih =>
    intro seen hseen
    show (addUnseen (if h ∈ seen then seen else seen ++ [h]) hs).Nodup
    refine ih _ ?_
    split
    · exact hseen
    · simpa [List.nodup_append] using ⟨hseen, by assumption⟩

theorem mem_gatherList (x : String) (headersByFile : List (List String)) :
    x ∈ gatherList headersByFile ↔ ∃ hdrs ∈ headersByFile, x ∈ hdrs := by
  suffices h : ∀ (ls : List (List String)) (seen : List String),
      x ∈ ls.foldl addUnseen seen ↔ x ∈ seen ∨ ∃ hdrs ∈ ls, x ∈ hdrs by
    have h' := h headersByFile []
    simpa [gatherList] using h'
  intro ls
  induction ls with
  | nil => intro seen; simp
  | cons l ls ih =>
    intro seen
    show x ∈ ls.foldl addUnseen (addUnseen seen l) ↔ _
    rw [ih, mem_addUnseen]
    constructor
    · rintro ((hx | hx) | ⟨hdrs, hmem, hx⟩)
      · exact Or.inl hx
      · exact Or.inr ⟨l, List.mem_cons_self l ls, hx⟩
      · exact Or.inr ⟨hdrs, List.mem_cons_of_mem l hmem, hx⟩
    · rintro (hx | ⟨hdrs, hmem, hx⟩)
      · exact Or.inl (Or.inl hx)
      · rcases List.mem_cons.mp hmem with hm | hm
        · exact Or.inl (Or.inr (hm ▸ hx))
        · exact Or.inr ⟨hdrs, hm, hx⟩

theorem nodup_gatherList (headersByFile : List (List String)) :
    (gatherList headersByFile).Nodup := by
  suffices h : ∀ (ls : List (List String)) (seen : List String),
      seen.Nodup → (ls.foldl addUnseen seen).Nodup by
    exact h headersByFile [] List.nodup_nil
  intro ls
  induction ls with
  | nil => intro seen h; exact h
  | cons l ls ih => intro seen hseen; exact ih _ (nodup_addUnseen l seen hseen)

/-- `ProcessData.complete_record`: walks
`zip_longest(record, header_comparison)` and keeps the paired cell exactly
where the paired flag is truthy — the pairing is positional, the shorter
side is filled with `None`, and a `None` flag is falsy. -/
def completeRecord : List String → List Bool → List (Option String)
  | [], bs => bs.map (fun _ => none)
  | _ :: rs, [] => none :: completeRecord rs []
  | r :: rs, b :: bs => (if b then some r else none) :: completeRecord rs bs

/-- Modelled from the spec: `complete(orderedRecord, presenceBitmap)` of
§4.3 walks the bitmap, consumes the next not-yet-used cell of the record
where the bit is true and emits the absence marker where it is false. -/
def completeSpec : List String → List Bool → List (Option String)
  | _, [] => []
  | rec, false :: bs => none :: completeSpec rec bs
  | rec, true :: bs => rec.head? :: completeSpec rec.tail bs

/-- Filtering a padded record down to the positions where the presence
bitmap is true. -/
def maskFilter : List Bool → List (Option String) → List (Option String)
  | true :: bs, c :: cs => c :: maskFilter bs cs
  | false :: bs, _ :: cs => maskFilter bs cs
  | _, _ => []

theorem completeRecord_length :
    ∀ (rec : List String) (bs : List Bool),
      (completeRecord rec bs).length = max rec.length bs.length := by
  intro rec
  induction rec with
  | nil => intro bs; simp [completeRecord]
  | cons r rs ih =>
    intro bs
    cases bs with
    | nil =>
      have h := ih []
      simp only [completeRecord, List.length_cons, h]
      simp
    | cons b bs => simp [completeRecord, ih bs, Nat.succ_max_succ]

/-- `functions.order_record`: pair the file's raw headers with the raw
record (`zip` truncates to the shorter), stable-sort the pairs by the
alphanumeric key of the header, and keep the cells.  When the pair list
is empty the Python original instead raises `ValueError` while unpacking
`zip(*couple)`: that path is carried by `orderRecordOpt` below, which
agrees with this total function whenever the header list is nonempty and
the record has one cell per header (`orderRecordOpt_eq_some`) — the
engine only calls `order_record` for sources whose header order differs
from its sorted order, which forces a nonempty header list. -/
def orderRecord (record : List String) (messyFileHeaders : List String) : List String :=
  (stableSort (oLt (fun p q : String × String => strKeyCmp p.1 q.1))
    (messyFileHeaders.zip record)).map Prod.snd

theorem orderRecord_length (record messyFileHeaders : List String) :
    (orderRecord record messyFileHeaders).length
      = min messyFileHeaders.length record.length := by
  unfold orderRecord
  rw [List.length_map, (stableSort_perm _ _).length_eq, List.length_zip]

/-- `functions.order_record` with its failure path explicit: when the
zipped pair list is empty, unpacking `zip(*couple)` raises `ValueError`
(`none`); note the sort of the pairs can also raise for non-ASCII header
names, a path the engine-level theorems exclude by their ASCII or
comparability hypotheses. -/
def orderRecordOpt (record : List String) (messyFileHeaders : List String) :
    Option (List String) :=
  match messyFileHeaders.zip record with
  | [] => none
  | _ :: _ => some (orderRecord record messyFileHeaders)

theorem orderRecordOpt_eq_some {record messyFileHeaders : List String}
    (hne : messyFileHeaders ≠ []) (hlen : record.length = messyFileHeaders.length) :
    orderRecordOpt record messyFileHeaders = some (orderRecord record messyFileHeaders) := by
  cases messyFileHeaders with
  | nil => exact absurd rfl hne
  | cons h hs =>
    cases record with
    | nil => simp at hlen
    | cons r rs => simp [orderRecordOpt]

/-- C1 (code bug evidence): on the ordered record `["a"]` with presence
bitmap `[false, true]` — one true bit, matching the record's length —
`complete_record` pairs the record positionally with the bitmap and
produces `[None, None]`, dropping the cell `"a"` instead of placing it at
the true position; the spec's `complete` produces `[None, "a"]`, and only
for it does filtering by the bitmap reproduce the record. -/
theorem c1_complete_record_misaligns :
    completeRecord ["a"] [false, true] = [none, none] ∧
    completeSpec ["a"] [false, true] = [none, some "a"] ∧
    maskFilter [false, true] (completeRecord ["a"] [false, true]) ≠ ["a"].map some ∧
    maskFilter [false, true] (completeSpec ["a"] [false, true]) = ["a"].map some := by
  decide

/-- C8 as stated fails twice over.  With no files at all, `sort_headers`
never binds its `set_headers` variable and `list(set_headers)` raises
`NameError` instead of producing the empty schema.  And for the one-file
collection whose only column name is the superscript two (U+00B2), the
gathering succeeds but `sort_alphanumeric` raises `ValueError` while
building the key — `int` rejects the digit-classified character — so no
unified schema is produced for that nonempty input either. -/
theorem c8_counterexample_schema_failures :
    sortHeadersOpt [] = none ∧
    gatherHeaders [["²"]] = some ["²"] ∧
    sortHeadersOpt [["²"]] = none := by
  decide

/-- The unified-schema facts C8 claims, for one gathered file list,
stated of the faithful possibly-raising `sort_headers`. -/
def unifiedSchemaOk (headersByFile : List (List String)) : Prop :=
  sortHeadersOpt headersByFile
      = some (sortAlphanumeric (gatherList headersByFile) false) ∧
  (∀ x, x ∈ (sortHeadersOpt headersByFile).getD [] ↔ ∃ hdrs ∈ headersByFile, x ∈ hdrs) ∧
  ((sortHeadersOpt headersByFile).getD []).Nodup ∧
  ((sortHeadersOpt headersByFile).getD []).Pairwise (oLe strKeyCmp)

/-- C8 (amended): for any nonempty collection of per-source column lists
whose names are ASCII — the regime in which the alphanumeric key never
raises — `sort_headers` succeeds, and the unified schema contains exactly
the names appearing in some source, holds no duplicates, and is
`sort_alphanumeric` of the gathered set union, hence sorted by the
alphanumeric key order. -/
theorem c8_unified_schema_ascii (headersByFile : List (List String))
    (hne : headersByFile ≠ [])
    (hascii : ∀ hdrs ∈ headersByFile, ∀ name ∈ hdrs, asciiString name) :
    unifiedSchemaOk headersByFile := by
  obtain ⟨first, rest, rfl⟩ := List.exists_cons_of_ne_nil hne
  have hgl : ∀ s ∈ gatherList (first :: rest), asciiString s := by
    intro s hs
    obtain ⟨hdrs, hh, hsh⟩ := (mem_gatherList s (first :: rest)).mp hs
    exact hascii hdrs hh s hsh
  have hsh : sortHeadersOpt (first :: rest)
      = some (sortAlphanumeric (gatherList (first :: rest)) false) := by
    unfold sortHeadersOpt
    rw [gatherHeaders_eq_gatherList, Option.some_bind,
      sortAlphanumericOpt_ascii _ false hgl]
  refine ⟨hsh, ?_, ?_, ?_⟩
  · intro x
    rw [hsh]
    show x ∈ sortAlphanumeric (gatherList (first :: rest)) false ↔ _
    rw [(sortAlphanumeric_perm _ _).mem_iff, mem_gatherList]
  · rw [hsh]
    show (sortAlphanumeric (gatherList (first :: rest)) false).Nodup
    exact (sortAlphanumeric_perm _ _).nodup_iff.mpr (nodup_gatherList _)
  · rw [hsh]
    exact sortAlphanumeric_asc_pairwise _

/-- C8 witness: the amended statement at a concrete pair of ASCII header
lists. -/
theorem c8_unified_schema_ascii_witness :
    unifiedSchemaOk [["M1", "D1"], ["D1", "M2"]] :=
  c8_unified_schema_ascii [["M1", "D1"], ["D1", "M2"]] (by decide) (by decide)

/-- One source as `ProcessData.process_data` sees it: the headers
discovered for the file and the record lists its data generator yields. -/
structure SourceData where
  headers : List String
  records : List (List String)
deriving DecidableEq

/-- The `rearrangement_needed` flag of
`ProcessData.make_file_processing_data`:
`file_headers != sort_alphanumeric(file_headers)`. -/
def rearrangementNeeded (hdrs : List String) : Bool :=
  decide (hdrs ≠ sortAlphanumeric hdrs false)

/-- The `header_comparison` presence bitmap of
`ProcessData.make_file_processing_data`: one flag per unified header,
true when the file has that header. -/
def headerComparison (unified hdrs : List String) : List Bool :=
  unified.map (fun h => decide (h ∈ hdrs))

/-- What the engine's inner loop does to one pulled record:
`order_record` when the source needs rearrangement, then
`complete_record` against the source's presence bitmap.  It uses the
total `orderRecord`; `transformRecordOpt` below carries `order_record`'s
`ValueError` path and agrees with this function on every record with one
cell per raw header (`transformRecordOpt_eq`). -/
def transformRecord (unified hdrs : List String) (rec : List String) : List (Option String) :=
  completeRecord (if rearrangementNeeded hdrs then orderRecord rec hdrs else rec)
    (headerComparison unified hdrs)

theorem rearrangementNeeded_nil : rearrangementNeeded [] = false := rfl

/-- The inner-loop transformation with `order_record`'s failure path kept:
`none` when `order_record` raises `ValueError` on an empty pair list. -/
def transformRecordOpt (unified hdrs : List String) (rec : List String) :
    Option (List (Option String)) :=
  (if rearrangementNeeded hdrs then orderRecordOpt rec hdrs else some rec).map
    (fun ordered => completeRecord ordered (headerComparison unified hdrs))

/-- The rearrangement flag can only be set for a nonempty header list, so
on records with one cell per raw header the faithful transformation never
hits the `ValueError` path and agrees with the total one. -/
theorem transformRecordOpt_eq (unified hdrs rec : List String)
    (hlen : rec.length = hdrs.length) :
    transformRecordOpt unified hdrs rec = some (transformRecord unified hdrs rec) := by
  unfold transformRecordOpt transformRecord
  by_cases hr : rearrangementNeeded hdrs = true
  · have hne : hdrs ≠ [] := by
      intro hnil
      rw [hnil, rearrangementNeeded_nil] at hr
      cases hr
    simp [hr, orderRecordOpt_eq_some hne hlen]
  · simp only [Bool.not_eq_true] at hr
    simp [hr]

/-- The unified schema the run works with (`self.headers` after
`sort_headers`), as a total function of the sources. -/
def unifiedOf (sources : List SourceData) : List String :=
  sortAlphanumeric (gatherList (sources.map (fun src => src.headers))) false

/-- Python's comparison of two record cells inside the sort keys: two
absence markers are equal (`None == None`), two strings compare by code
point, and `None` against a string raises `TypeError` (`none`). -/
def cellCmp : Option String → Option String → Option Ordering
  | none, none => some .eq
  | some a, some b => some (strCmp a b)
  | _, _ => none

theorem lawful_cellCmp : LawfulCmp cellCmp where
  eq_iff := by
    intro a b h
    cases a with
    | none =>
      cases b with
      | none => rfl
      | some y => exact absurd h (by simp [cellCmp])
    | some x =>
      cases b with
      | none => exact absurd h (by simp [cellCmp])
      | some y => exact congrArg some (lawful_strCmpOpt.eq_iff x y h)
  refl := by
    intro a
    cases a with
    | none => rfl
    | some x => exact lawful_strCmpOpt.refl x
  swap := by
    intro a b
    cases a with
    | none => cases b with
      | none => rfl
      | some y => rfl
    | some x => cases b with
      | none => rfl
      | some y => exact lawful_strCmpOpt.swap x y
  lt_trans := by
    intro a b d h1 h2
    cases a with
    | none =>
      cases b with
      | none => exact absurd h1 (by simp [cellCmp])
      | some y => exact absurd h1 (by simp [cellCmp])
    | some x =>
      cases b with
      | none => exact absurd h1 (by simp [cellCmp])
      | some y =>
        cases d with
        | none => exact absurd h2 (by simp [cellCmp])
        | some z => exact lawful_strCmpOpt.lt_trans x y z h1 h2

/-- The partial-flush sort key comparison, `data[0:2]` against
`data[0:2]`. -/
def recCmp2 (a b : List (Option String)) : Option Ordering :=
  lexOpt cellCmp (a.take 2) (b.take 2)

/-- The final sort key comparison, `data[0:3]` against `data[0:3]`. -/
def recCmp3 (a b : List (Option String)) : Option Ordering :=
  lexOpt cellCmp (a.take 3) (b.take 3)

theorem sortCmp_recCmp2 : SortCmp recCmp2 :=
  SortCmp.of_key (lexOpt_lawful lawful_cellCmp) (fun r : List (Option String) => r.take 2)

theorem sortCmp_recCmp3 : SortCmp recCmp3 :=
  SortCmp.of_key (lexOpt_lawful lawful_cellCmp) (fun r : List (Option String) => r.take 3)

/-- `sorting.sort(key=lambda data: data[0:2])`, the partial-flush sort. -/
def sortTwo (l : List (List (Option String))) : List (List (Option String)) :=
  stableSort (oLt recCmp2) l

/-- `sorting.sort(key=lambda data: data[0:3])`, the final sort. -/
def sortThree (l : List (List (Option String))) : List (List (Option String)) :=
  stableSort (oLt recCmp3) l

/-- The engine state across rounds: the active buffer (`sorting`), the
`partial_write` flag, and the batches handed to the output sink so far. -/
structure EngineState where
  sorting : List (List (Option String))
  flushFlag : Bool
  writes : List (List (List (Option String)))

/-- The fixed flush threshold of `ProcessData.process_data`. -/
def flushThreshold : Nat := 52000

def initState : EngineState := { sorting := [], flushFlag := false, writes := [] }

/-- One iteration of the `for data_tuple in generated_data` loop: first
the threshold check — when the buffer holds strictly more than the
threshold it is sorted by the two-column key, appended as one batch, the
flag is set and the buffer reset — then the round's records are appended
to the buffer.  This is the total model, which takes the flush sort to
succeed; the faithful step with the sort's `TypeError` abort is
`engineRoundOpt`, and whenever that one returns a state it is this one's
(`engineRoundOpt_some_eq`). -/
def engineRound (st : EngineState) (round : List (List (Option String))) : EngineState :=
  let st1 := if flushThreshold < st.sorting.length then
      { sorting := [], flushFlag := true, writes := st.writes ++ [sortTwo st.sorting] }
    else st
  { st1 with sorting := st1.sorting ++ round }

def runRounds (rounds : List (List (List (Option String)))) : EngineState :=
  rounds.foldl engineRound initState

/-- What the engine returns: the partial-write flag and the remaining
buffer sorted by the three-column key — the final batch is returned, not
written.  This is the total model; the faithful return with the sorts'
`TypeError` aborts is `engineReturnOpt`, and whenever that one returns a
value it is this one's (`engineReturnOpt_some_eq`). -/
def engineReturn (rounds : List (List (List (Option String)))) :
    Bool × List (List (Option String)) :=
  ((runRounds rounds).flushFlag, sortThree (runRounds rounds).sorting)

/-- Round `r` of `zip_longest(*data_generators)` after the inner loop's
filtering and per-record transformation: each still-active source, in
source order, contributes its `r`-th record transformed; an exhausted
source contributes nothing (its `None` slot is skipped). -/
def roundRecords (sources : List SourceData) (r : Nat) : List (List (Option String)) :=
  sources.filterMap
    (fun src => (src.records.get? r).map (transformRecord (unifiedOf sources) src.headers))

/-- `zip_longest` stops when the longest generator is exhausted. -/
def numRounds (sources : List SourceData) : Nat :=
  (sources.map (fun src => src.records.length)).foldr max 0

def allRounds (sources : List SourceData) : List (List (List (Option String))) :=
  (List.range (numRounds sources)).map (roundRecords sources)

/-- `ProcessData.process_data` on the given sources: run every round,
then return `(partial_write, final sorted buffer)`. -/
def processDataEngine (sources : List SourceData) : Bool × List (List (Option String)) :=
  engineReturn (allRounds sources)

/-- The batches written to the output sink during the run (the partial
flushes, in order). -/
def engineWrites (sources : List SourceData) : List (List (List (Option String))) :=
  (runRounds (allRounds sources)).writes

/-- Everything the run emits: the partial batches in write order followed
by the returned final batch. -/
def engineOutput (sources : List SourceData) : List (List (Option String)) :=
  (engineWrites sources).join ++ (processDataEngine sources).2

theorem heads_tails_perm {α : Type} :
    ∀ L : List (List α),
      List.Perm ((L.filterMap (fun l => l.head?)) ++ (L.map List.tail).flatten) L.flatten := by
  intro L
  induction L with
  | nil => simp
  | cons g gs ih =>
    cases g with
    | nil =>
      show List.Perm ((gs.filterMap (fun l => l.head?)) ++ ([] ++ (gs.map List.tail).flatten))
        ([] ++ gs.flatten)
      simpa using ih
    | cons a t =>
      show List.Perm (a :: (gs.filterMap (fun l => l.head?) ++ (t ++ (gs.map List.tail).flatten)))
        (a :: (t ++ gs.flatten))
      refine List.Perm.cons a ?_
      have e1 : gs.filterMap (fun l => l.head?) ++ (t ++ (gs.map List.tail).flatten)
          = (gs.filterMap (fun l => l.head?) ++ t) ++ (gs.map List.tail).flatten := by
        rw [List.append_assoc]
      rw [e1]
      refine (List.perm_append_comm.append_right _).trans ?_
      rw [List.append_assoc]
      exact ih.append_left t

theorem transposeJoin_perm {α : Type} :
    ∀ (n : Nat) (L : List (List α)), (∀ l ∈ L, l.length ≤ n) →
      List.Perm (((List.range n).map (fun r => L.filterMap (fun l => l.get? r))).flatten)
        L.flatten := by
  intro n
  induction n with
  | zero =>
    intro L hL
    have hnil : L.flatten = [] := by
      rw [List.flatten_eq_nil_iff]
      intro l hl
      exact List.length_eq_zero.mp (Nat.le_zero.mp (hL l hl))
    simp [hnil]
  | succ n ih =>
    intro L hL
    rw [List.range_succ_eq_map, List.map_cons, List.map_map]
    have h0 : L.filterMap (fun l => l.get? 0) = L.filterMap (fun l => l.head?) := by
      congr 1
      funext l
      exact List.get?_zero l
    have hsucc : ((List.range n).map ((fun r => L.filterMap (fun l => l.get? r)) ∘ Nat.succ))
        = (List.range n).map (fun r => (L.map List.tail).filterMap (fun l => l.get? r)) := by
      congr 1
      funext r
      show L.filterMap (fun l => l.get? (r + 1)) = _
      rw [List.filterMap_map]
      congr 1
      funext l
      cases l <;> rfl
    rw [List.flatten_cons, h0, hsucc]
    have hbound : ∀ l ∈ L.map List.tail, l.length ≤ n := by
      intro l hl
      rcases List.mem_map.mp hl with ⟨l', hl', rfl⟩
      have := hL l' hl'
      rw [List.length_tail]
      omega
    exact ((ih (L.map List.tail) hbound).append_left _).trans (heads_tails_perm L)

theorem foldl_engineRound_content :
    ∀ (rounds : List (List (List (Option String)))) (st : EngineState),
      List.Perm
        ((rounds.foldl engineRound st).writes.flatten ++ (rounds.foldl engineRound st).sorting)
        (st.writes.flatten ++ (st.sorting ++ rounds.flatten)) := by
  intro rounds
  induction rounds with
  | nil => intro st; simp
  | cons round rs ih =>
    intro st
    show List.Perm ((rs.foldl engineRound (engineRound st round)).writes.flatten ++ _) _
    refine (ih (engineRound st round)).trans ?_
    rw [List.flatten_cons]
    by_cases hth : flushThreshold < st.sorting.length
    · have he : engineRound st round
          = { sorting := round, flushFlag := true, writes := st.writes ++ [sortTwo st.sorting] } := by
        simp [engineRound, hth]
      rw [he]
      rw [List.flatten_append, List.flatten_cons, List.flatten_nil, List.append_nil,
        List.append_assoc]
      refine List.Perm.append_left st.writes.flatten ?_
      exact (stableSort_perm _ st.sorting).append_right _
    · have he : engineRound st round = { st with sorting := st.sorting ++ round } := by
        simp [engineRound, hth]
      rw [he]
      rw [List.append_assoc]

theorem records_length_le_numRounds {src : SourceData} :
    ∀ {sources : List SourceData}, src ∈ sources →
      src.records.length ≤ numRounds sources := by
  intro sources
  induction sources with
  | nil => intro h; cases h
  | cons s ss ih =>
    intro h
    show src.records.length ≤ max s.records.length (numRounds ss)
    rcases List.mem_cons.mp h with h | h
    · rw [h]; exact Nat.le_max_left _ _
    · exact Nat.le_trans (ih h) (Nat.le_max_right _ _)

theorem headers_length_le_unified {src : SourceData} {sources : List SourceData}
    (hmem : src ∈ sources) (hnodup : src.headers.Nodup) :
    src.headers.length ≤ (unifiedOf sources).length := by
  have hlen : (unifiedOf sources).length
      = (gatherList (sources.map (fun s => s.headers))).length :=
    (sortAlphanumeric_perm _ _).length_eq
  rw [hlen]
  have hsub : src.headers ⊆ gatherList (sources.map (fun s => s.headers)) := by
    intro x hx
    rw [mem_gatherList]
    exact ⟨src.headers, List.mem_map.mpr ⟨src, hmem, rfl⟩, hx⟩
  exact (hnodup.subperm hsub).length_le

theorem transformRecord_length (unified hdrs rec : List String)
    (hlen : rec.length = hdrs.length) (hle : hdrs.length ≤ unified.length) :
    (transformRecord unified hdrs rec).length = unified.length := by
  unfold transformRecord
  rw [completeRecord_length]
  have hcmp : (headerComparison unified hdrs).length = unified.length := by
    simp [headerComparison]
  rw [hcmp]
  split
  · rw [orderRecord_length, hlen, min_self]
    exact Nat.max_eq_right hle
  · rw [hlen]
    exact Nat.max_eq_right hle

theorem filterMap_get?_eq {β : Type} (g : SourceData → List String → β) :
    ∀ (L : List SourceData) (r : Nat),
      L.filterMap (fun src => (src.records.get? r).map (g src))
        = (L.filter (fun src => decide (r < src.records.length))).map
            (fun src => g src (src.records.getD r [])) := by
  intro L r
  induction L with
  | nil => rfl
  | cons s ss ih =>
    by_cases h : r < s.records.length
    · have hsome : Option.map (g s) (s.records.get? r)
          = some (g s (s.records.getD r [])) := by
        rw [List.getD_eq_get?, List.get?_eq_get h]
        rfl
      have hfil : (s :: ss).filter (fun src => decide (r < src.records.length))
          = s :: ss.filter (fun src => decide (r < src.records.length)) :=
        List.filter_cons_of_pos (by simpa using h)
      simp only [List.filterMap_cons, hsome, hfil, List.map_cons, ih]
    · have hnone : Option.map (g s) (s.records.get? r) = none := by
        rw [List.get?_eq_none.mpr (Nat.le_of_not_lt h)]
        rfl
      have hfil : (s :: ss).filter (fun src => decide (r < src.records.length))
          = ss.filter (fun src => decide (r < src.records.length)) :=
        List.filter_cons_of_neg (by simpa using h)
      simp only [List.filterMap_cons, hnone, hfil, ih]

theorem allRounds_eq_transpose (sources : List SourceData) :
    allRounds sources = (List.range (numRounds sources)).map
      (fun r => (sources.map
          (fun src => src.records.map (transformRecord (unifiedOf sources) src.headers))).filterMap
        (fun l => l.get? r)) := by
  unfold allRounds roundRecords
  congr 1
  funext r
  rw [List.filterMap_map]
  congr 1
  funext src
  show (src.records.get? r).map (transformRecord (unifiedOf sources) src.headers)
      = (src.records.map (transformRecord (unifiedOf sources) src.headers)).get? r
  rw [List.get?_map]

theorem engineOutput_perm (sources : List SourceData) :
    List.Perm (engineOutput sources)
      ((sources.map
        (fun src => src.records.map (transformRecord (unifiedOf sources) src.headers))).flatten) := by
  have h1 : List.Perm (engineOutput sources)
      (((allRounds sources).foldl engineRound initState).writes.flatten
        ++ ((allRounds sources).foldl engineRound initState).sorting) := by
    unfold engineOutput engineWrites processDataEngine engineReturn runRounds
    exact List.Perm.append_left _ (stableSort_perm _ _)
  refine h1.trans ?_
  refine (foldl_engineRound_content (allRounds sources) initState).trans ?_
  show List.Perm ([] ++ ([] ++ (allRounds sources).flatten)) _
  rw [List.nil_append, List.nil_append, allRounds_eq_transpose]
  refine transposeJoin_perm (numRounds sources) _ ?_
  intro l hl
  rcases List.mem_map.mp hl with ⟨src, hsrc, rfl⟩
  rw [List.length_map]
  exact records_length_le_numRounds hsrc

/-- The outer-join facts C5 claims of the engine run. -/
def outerJoinOk (sources : List SourceData) : Prop :=
  (∀ r : Nat, roundRecords sources r
      = (sources.filter (fun src => decide (r < src.records.length))).map
          (fun src => transformRecord (unifiedOf sources) src.headers
            (src.records.getD r []))) ∧
  List.Perm (engineOutput sources)
    ((sources.map
      (fun src => src.records.map (transformRecord (unifiedOf sources) src.headers))).flatten) ∧
  (∀ rec ∈ engineOutput sources, rec.length = (unifiedOf sources).length)

/-- The outer-join facts of the total engine model, under the
well-formedness assumptions: each source's header list is duplicate-free
and each of its raw records has one cell per raw header. -/
theorem outerJoinOk_of_wf (sources : List SourceData)
    (hnodup : ∀ src ∈ sources, src.headers.Nodup)
    (hlen : ∀ src ∈ sources, ∀ rec ∈ src.records, rec.length = src.headers.length) :
    outerJoinOk sources := by
  refine ⟨?_, engineOutput_perm sources, ?_⟩
  · intro r
    exact filterMap_get?_eq
      (fun src => transformRecord (unifiedOf sources) src.headers) sources r
  · intro rec hrec
    have hmem := (engineOutput_perm sources).mem_iff.mp hrec
    rcases List.mem_flatten.mp hmem with ⟨l, hl, hrecl⟩
    rcases List.mem_map.mp hl with ⟨src, hsrc, rfl⟩
    rcases List.mem_map.mp hrecl with ⟨raw, hraw, rfl⟩
    exact transformRecord_length _ _ _ (hlen src hsrc raw hraw)
      (headers_length_le_unified hsrc (hnodup src hsrc))

theorem engineRound_pos {st : EngineState} {round : List (List (Option String))}
    (h : flushThreshold < st.sorting.length) :
    engineRound st round
      = { sorting := round, flushFlag := true, writes := st.writes ++ [sortTwo st.sorting] } := by
  simp [engineRound, h]

theorem engineRound_neg {st : EngineState} {round : List (List (Option String))}
    (h : ¬ flushThreshold < st.sorting.length) :
    engineRound st round
      = { sorting := st.sorting ++ round, flushFlag := st.flushFlag, writes := st.writes } := by
  simp [engineRound, h]

theorem foldl_take_succ (rounds : List (List (List (Option String)))) (k : Nat)
    (h : k < rounds.length) :
    (rounds.take (k + 1)).foldl engineRound initState
      = engineRound ((rounds.take k).foldl engineRound initState) (rounds.getD k []) := by
  have hgetE : rounds[k]? = some (rounds.getD k []) := by
    rw [← List.get?_eq_getElem?]
    have hd : rounds.getD k [] = rounds.get ⟨k, h⟩ := by
      rw [List.getD_eq_get?, List.get?_eq_get h]
      rfl
    rw [hd, List.get?_eq_get h]
  have htake : rounds.take (k + 1) = rounds.take k ++ [rounds.getD k []] := by
    rw [List.take_succ, hgetE]
    rfl
  rw [htake, List.foldl_append]
  rfl

/-- Every reachable engine state's buffer is the flattening of a suffix of
the rounds seen so far, and every batch written so far is the two-column
sort of the flattening of a contiguous block of whole rounds: a round's
output is never split across a flush boundary. -/
theorem runRounds_prefix_shape (rounds : List (List (List (Option String)))) :
    ∀ k : Nat,
      (∃ a, a ≤ k ∧ ((rounds.take k).foldl engineRound initState).sorting
          = (((rounds.take k).drop a)).flatten) ∧
      (∀ w ∈ ((rounds.take k).foldl engineRound initState).writes,
        ∃ a b, w = sortTwo (((rounds.take b).drop a).flatten)) := by
  intro k
  induction k with
  | zero =>
    refine ⟨⟨0, Nat.le_refl 0, by simp [initState]⟩, ?_⟩
    intro w hw
    simp [initState] at hw
  | succ k ih =>
    obtain ⟨⟨a, ha, hsort⟩, hwrites⟩ := ih
    by_cases hk : k < rounds.length
    · have htake : rounds.take (k + 1) = rounds.take k ++ [rounds.getD k []] := by
        have hgetE : rounds[k]? = some (rounds.getD k []) := by
          rw [← List.get?_eq_getElem?]
          have hd : rounds.getD k [] = rounds.get ⟨k, hk⟩ := by
            rw [List.getD_eq_get?, List.get?_eq_get hk]
            rfl
          rw [hd, List.get?_eq_get hk]
        rw [List.take_succ, hgetE]
        rfl
      have halen : a ≤ (rounds.take k).length := by
        rw [List.length_take]
        omega
      rw [foldl_take_succ rounds k hk]
      by_cases hth : flushThreshold
          < ((rounds.take k).foldl engineRound initState).sorting.length
      · rw [engineRound_pos hth]
        refine ⟨⟨k, Nat.le_succ k, ?_⟩, ?_⟩
        · show rounds.getD k [] = ((rounds.take (k + 1)).drop k).flatten
          rw [htake, List.drop_append_of_le_length (by rw [List.length_take]; omega),
            List.drop_eq_nil_of_le (by rw [List.length_take]; omega), List.nil_append,
            List.flatten_cons, List.flatten_nil, List.append_nil]
        · intro w hw
          show ∃ a b, w = sortTwo (((rounds.take b).drop a).flatten)
          rcases List.mem_append.mp hw with hw | hw
          · exact hwrites w hw
          · refine ⟨a, k, ?_⟩
            rw [List.mem_singleton.mp hw, hsort]
      · rw [engineRound_neg hth]
        refine ⟨⟨a, Nat.le_trans ha (Nat.le_succ k), ?_⟩, ?_⟩
        · show ((rounds.take k).foldl engineRound initState).sorting ++ rounds.getD k []
              = ((rounds.take (k + 1)).drop a).flatten
          rw [hsort, htake, List.drop_append_of_le_length halen, List.flatten_append,
            List.flatten_cons, List.flatten_nil, List.append_nil]
        · intro w hw
          exact hwrites w hw
    · have htake : rounds.take (k + 1) = rounds.take k := by
        rw [List.take_of_length_le (by omega), List.take_of_length_le (by omega)]
      rw [htake]
      exact ⟨⟨a, Nat.le_trans ha (Nat.le_succ k), hsort⟩, hwrites⟩

/-- `sorting.sort(key=lambda data: data[0:2])` with its `TypeError` path
explicit: `none` when a needed key comparison hits `None` against a
string. -/
def sortTwoOpt (l : List (List (Option String))) : Option (List (List (Option String))) :=
  stableSortOpt (ltOptOf recCmp2) l

/-- `sorting.sort(key=lambda data: data[0:3])` with its `TypeError` path
explicit. -/
def sortThreeOpt (l : List (List (Option String))) : Option (List (List (Option String))) :=
  stableSortOpt (ltOptOf recCmp3) l

/-- One loop iteration with the flush sort's `TypeError` path: when the
threshold is exceeded and the in-place sort raises, the run dies —
nothing is written, no flag is set, no reset happens. -/
def engineRoundOpt (st : EngineState) (round : List (List (Option String))) :
    Option EngineState :=
  if flushThreshold < st.sorting.length then
    (sortTwoOpt st.sorting).map (fun sorted =>
      { sorting := round, flushFlag := true, writes := st.writes ++ [sorted] })
  else some { st with sorting := st.sorting ++ round }

/-- The run of the `process_data` loop with the abort path carried. -/
def runRoundsOpt (rounds : List (List (List (Option String)))) : Option EngineState :=
  rounds.foldl (fun acc round => acc.bind (fun st => engineRoundOpt st round)) (some initState)

/-- What `process_data` actually returns, with the final sort's
`TypeError` path: `none` when the run raised during a flush or during the
final three-column sort. -/
def engineReturnOpt (rounds : List (List (List (Option String)))) :
    Option (Bool × List (List (Option String))) :=
  (runRoundsOpt rounds).bind (fun st =>
    (sortThreeOpt st.sorting).map (fun final => (st.flushFlag, final)))

def processDataEngineOpt (sources : List SourceData) :
    Option (Bool × List (List (Option String))) :=
  engineReturnOpt (allRounds sources)

theorem sortTwoOpt_some_eq {l r : List (List (Option String))}
    (h : sortTwoOpt l = some r) : r = sortTwo l :=
  stableSortOpt_some h

theorem sortTwoOpt_of_cmpAll {l : List (List (Option String))} (h : cmpAll recCmp2 l) :
    sortTwoOpt l = some (sortTwo l) :=
  stableSortOpt_of_cmpAll h

theorem sortThreeOpt_of_cmpAll {l : List (List (Option String))} (h : cmpAll recCmp3 l) :
    sortThreeOpt l = some (sortThree l) :=
  stableSortOpt_of_cmpAll h

theorem engineRoundOpt_some_eq {st : EngineState} {round : List (List (Option String))}
    {st2 : EngineState} (h : engineRoundOpt st round = some st2) :
    st2 = engineRound st round := by
  unfold engineRoundOpt at h
  by_cases hth : flushThreshold < st.sorting.length
  · rw [if_pos hth] at h
    cases hs : sortTwoOpt st.sorting with
    | none => rw [hs] at h; cases h
    | some sorted =>
      rw [hs] at h
      injection h with h2
      rw [← h2, engineRound_pos hth, sortTwoOpt_some_eq hs]
  · rw [if_neg hth] at h
    injection h with h2
    rw [← h2, engineRound_neg hth]

theorem runRoundsOpt_foldl_some :
    ∀ (l : List (List (List (Option String)))) (st0 st2 : EngineState),
      l.foldl (fun acc round => acc.bind (fun st => engineRoundOpt st round)) (some st0)
          = some st2 →
      st2 = l.foldl engineRound st0 := by
  intro l
  induction l with
  | nil =>
    intro st0 st2 h
    simp only [List.foldl_nil] at h ⊢
    injection h with h2
    exact h2.symm
  | cons round rest ih =>
    intro st0 st2 h
    simp only [List.foldl_cons, Option.some_bind] at h
    cases h1 : engineRoundOpt st0 round with
    | none =>
      rw [h1, foldl_bind_none (fun round st => engineRoundOpt st round)] at h
      cases h
    | some st1 =>
      rw [h1] at h
      rw [List.foldl_cons, ← engineRoundOpt_some_eq h1]
      exact ih st1 st2 h

theorem runRoundsOpt_some_eq {rounds : List (List (List (Option String)))}
    {st : EngineState} (h : runRoundsOpt rounds = some st) : st = runRounds rounds :=
  runRoundsOpt_foldl_some rounds initState st h

theorem engineReturnOpt_some_eq {rounds : List (List (List (Option String)))}
    {res : Bool × List (List (Option String))} (h : engineReturnOpt rounds = some res) :
    res = engineReturn rounds := by
  unfold engineReturnOpt at h
  cases hrr : runRoundsOpt rounds with
  | none => rw [hrr] at h; cases h
  | some st =>
    rw [hrr, Option.some_bind] at h
    cases hs3 : sortThreeOpt st.sorting with
    | none => rw [hs3] at h; cases h
    | some fin =>
      rw [hs3] at h
      injection h with h2
      have hst := runRoundsOpt_some_eq hrr
      have hfin : fin = sortThree st.sorting := stableSortOpt_some hs3
      rw [← h2, hfin, hst]
      rfl

theorem runRoundsOpt_take_succ (rounds : List (List (List (Option String)))) (k : Nat)
    (h : k < rounds.length) :
    runRoundsOpt (rounds.take (k + 1))
      = (runRoundsOpt (rounds.take k)).bind
          (fun st => engineRoundOpt st (rounds.getD k [])) := by
  have hgetE : rounds[k]? = some (rounds.getD k []) := by
    rw [← List.get?_eq_getElem?]
    have hd : rounds.getD k [] = rounds.get ⟨k, h⟩ := by
      rw [List.getD_eq_get?, List.get?_eq_get h]
      rfl
    rw [hd, List.get?_eq_get h]
  have htake : rounds.take (k + 1) = rounds.take k ++ [rounds.getD k []] := by
    rw [List.take_succ, hgetE]
    rfl
  unfold runRoundsOpt
  rw [htake, List.foldl_append]
  rfl

/-- C5 as stated fails.  Two well-formed sources — duplicate-free
headers, one cell per header — that disagree on one of the first three
unified columns make the final `data[0:3]` sort compare the string cell
of one padded record against the `None` of the other: the sort raises
`TypeError`, `process_data` dies, and no record at all is emitted, let
alone each exactly once. -/
theorem c5_counterexample_final_sort_raises :
    (∀ src ∈ ([⟨["D1", "D2", "M1"], [["1", "2", "x"]]⟩,
        ⟨["D1", "M1", "M2"], [["1", "y", "z"]]⟩] : List SourceData), src.headers.Nodup) ∧
    (∀ src ∈ ([⟨["D1", "D2", "M1"], [["1", "2", "x"]]⟩,
        ⟨["D1", "M1", "M2"], [["1", "y", "z"]]⟩] : List SourceData),
      ∀ rec ∈ src.records, rec.length = src.headers.length) ∧
    processDataEngineOpt
        [⟨["D1", "D2", "M1"], [["1", "2", "x"]]⟩,
          ⟨["D1", "M1", "M2"], [["1", "y", "z"]]⟩] = none := by
  decide

/-- The C5 facts of the faithful run: the run agrees with the total
model, and the total model's outer-join facts therefore describe what it
emits. -/
def outerJoinRunOk (sources : List SourceData) : Prop :=
  runRoundsOpt (allRounds sources) = some (runRounds (allRounds sources)) ∧
  processDataEngineOpt sources = some (processDataEngine sources) ∧
  outerJoinOk sources

/-- C5 (amended): under the well-formedness assumptions, whenever the run
completes — neither a flush sort nor the final sort raises `TypeError`,
hypothesised through `processDataEngineOpt` — every round pulls, in
source order, the next record of every still-active source and nothing
from exhausted ones, and across the whole run each input record is
emitted exactly once, padded to exactly the unified schema's length; when
a sort raises, the run instead aborts with nothing emitted (see the
counterexample). -/
theorem c5_engine_outer_join_guarded (sources : List SourceData)
    (hnodup : ∀ src ∈ sources, src.headers.Nodup)
    (hlen : ∀ src ∈ sources, ∀ rec ∈ src.records, rec.length = src.headers.length)
    (hrun : (processDataEngineOpt sources).isSome = true) :
    outerJoinRunOk sources := by
  obtain ⟨res, hres⟩ := Option.isSome_iff_exists.mp hrun
  have hrr : ∃ st, runRoundsOpt (allRounds sources) = some st := by
    have hres2 : engineReturnOpt (allRounds sources) = some res := hres
    unfold engineReturnOpt at hres2
    cases hx : runRoundsOpt (allRounds sources) with
    | none => rw [hx] at hres2; cases hres2
    | some st => exact ⟨st, rfl⟩
  obtain ⟨st, hst⟩ := hrr
  refine ⟨?_, ?_, outerJoinOk_of_wf sources hnodup hlen⟩
  · rw [hst, runRoundsOpt_some_eq hst]
  · have hpe : res = processDataEngine sources := engineReturnOpt_some_eq hres
    rw [hres, hpe]

/-- C5 witness: two sources over the same three ASCII columns; every
record is complete, the compared key slices hold only strings, and the
run returns. -/
theorem c5_engine_outer_join_guarded_witness :
    outerJoinRunOk
      [⟨["D1", "D2", "M1"], [["1", "2", "x"], ["3", "4", "y"]]⟩,
        ⟨["D1", "D2", "M1"], [["5", "6", "z"]]⟩] :=
  c5_engine_outer_join_guarded _ (by decide) (by decide) (by decide)

/-- A record whose second cell is absent, and one whose second cell is a
string: their two-column sort keys tie on the first column and then
compare `None` against a string, which raises. -/
def recordWithGap : List (Option String) := [some "1", none]

def recordFull : List (Option String) := [some "1", some "2"]

/-- One round of 52,002 records whose two-column sort raises on its first
two records. -/
def bigFlushRound : List (List (Option String)) :=
  [recordWithGap, recordFull] ++ List.replicate 52000 recordWithGap

def bigFlushRounds : List (List (List (Option String))) := [bigFlushRound, [recordWithGap]]

/-- C6 as stated fails.  After its first round the buffer holds 52,002
records — above the threshold — so before the second round the code must
flush; but the two-column sort compares `None` against the string of the
second buffered record and raises `TypeError`: the run dies with no batch
handed to the sink, no flag set and no buffer reset. -/
theorem c6_counterexample_flush_sort_raises :
    flushThreshold < bigFlushRound.length ∧
    runRoundsOpt (bigFlushRounds.take 1)
        = some { sorting := bigFlushRound, flushFlag := false, writes := [] } ∧
    runRoundsOpt bigFlushRounds = none := by
  have hlen : bigFlushRound.length = 52002 := by
    show ([recordWithGap, recordFull] ++ List.replicate 52000 recordWithGap).length = 52002
    rw [List.length_append, List.length_replicate]
    norm_num
  have hone : runRoundsOpt (bigFlushRounds.take 1)
      = some { sorting := bigFlushRound, flushFlag := false, writes := [] } := rfl
  have hsort : sortTwoOpt bigFlushRound = none := by
    show ([recordWithGap, recordFull] ++ List.replicate 52000 recordWithGap).foldl
        (fun acc x => acc.bind (fun a => insertStableOpt (ltOptOf recCmp2) x a)) (some [])
      = none
    rw [List.foldl_append]
    have htwo : [recordWithGap, recordFull].foldl
        (fun acc x => acc.bind (fun a => insertStableOpt (ltOptOf recCmp2) x a)) (some [])
        = none := rfl
    rw [htwo]
    exact foldl_bind_none (fun x a => insertStableOpt (ltOptOf recCmp2) x a) _
  have hcrash : engineRoundOpt
      { sorting := bigFlushRound, flushFlag := false, writes := [] } [recordWithGap]
      = none := by
    have hth : flushThreshold
        < (EngineState.mk bigFlushRound false [] : EngineState).sorting.length := by
      show flushThreshold < bigFlushRound.length
      rw [hlen]
      norm_num [flushThreshold]
    simp only [engineRoundOpt]
    rw [if_pos hth]
    have hsort2 : sortTwoOpt (EngineState.mk bigFlushRound false [] : EngineState).sorting
        = none := hsort
    rw [hsort2]
    rfl
  refine ⟨by rw [hlen]; norm_num [flushThreshold], hone, ?_⟩
  have hstep := runRoundsOpt_take_succ bigFlushRounds 1 (by norm_num [bigFlushRounds])
  have htake2 : bigFlushRounds.take 2 = bigFlushRounds := rfl
  rw [htake2] at hstep
  have hget : bigFlushRounds.getD 1 [] = [recordWithGap] := rfl
  rw [hstep, hone, Option.some_bind, hget, hcrash]

/-- The round-boundary flush behavior of the faithful engine, for one
round index. -/
def flushBoundaryRunOk (rounds : List (List (List (Option String)))) (k : Nat) : Prop :=
  (∀ stA : EngineState, runRoundsOpt (rounds.take k) = some stA →
    (flushThreshold < stA.sorting.length →
      runRoundsOpt (rounds.take (k + 1))
          = (sortTwoOpt stA.sorting).map (fun sorted =>
              { sorting := rounds.getD k [], flushFlag := true,
                writes := stA.writes ++ [sorted] }) ∧
      (cmpAll recCmp2 stA.sorting →
        runRoundsOpt (rounds.take (k + 1))
            = some { sorting := rounds.getD k [], flushFlag := true,
                     writes := stA.writes ++ [sortTwo stA.sorting] }) ∧
      (sortTwoOpt stA.sorting = none →
        runRoundsOpt (rounds.take (k + 1)) = none)) ∧
    (¬ flushThreshold < stA.sorting.length →
      runRoundsOpt (rounds.take (k + 1))
          = some { sorting := stA.sorting ++ rounds.getD k [],
                   flushFlag := stA.flushFlag, writes := stA.writes })) ∧
  (∀ st : EngineState, runRoundsOpt (rounds.take (k + 1)) = some st →
    ∀ w ∈ st.writes, ∃ a b, w = sortTwo (((rounds.take b).drop a).flatten))

/-- C6 (amended): before processing round `k`, exactly when the buffer
holds strictly more than the 52,000-record threshold the code attempts
the flush: the buffer is sorted by the two-column key — when every needed
key comparison succeeds, in particular whenever the key slices are
pairwise comparable, the sorted buffer is appended as one batch, the
partial-write flag is set and the buffer is reset (the new round becomes
its whole content); when the sort raises `TypeError` the run aborts with
nothing flushed at all.  Below the threshold nothing is written and the
round is appended.  Every batch a completed prefix has written is the
two-column sort of a block of consecutive whole rounds, so one round's
output is never split across a flush boundary. -/
theorem c6_flush_at_round_boundaries_guarded
    (rounds : List (List (List (Option String)))) (k : Nat)
    (h : k < rounds.length) : flushBoundaryRunOk rounds k := by
  constructor
  · intro stA hstA
    have hsucc := runRoundsOpt_take_succ rounds k h
    rw [hstA, Option.some_bind] at hsucc
    constructor
    · intro hth
      refine ⟨?_, ?_, ?_⟩
      · rw [hsucc]
        simp only [engineRoundOpt]
        rw [if_pos hth]
      · intro hcmp
        rw [hsucc]
        simp only [engineRoundOpt]
        rw [if_pos hth, sortTwoOpt_of_cmpAll hcmp]
        rfl
      · intro hnone
        rw [hsucc]
        simp only [engineRoundOpt]
        rw [if_pos hth, hnone]
        rfl
    · intro hth
      rw [hsucc]
      simp only [engineRoundOpt]
      rw [if_neg hth]
  · intro st hst w hw
    have hsteq := runRoundsOpt_some_eq hst
    rw [hsteq] at hw
    exact (runRounds_prefix_shape rounds (k + 1)).2 w hw

/-- C6 witness: the guarded flush-boundary behavior at round 0 of a
concrete two-round run. -/
theorem c6_flush_guarded_witness : flushBoundaryRunOk [[[some "b"]], [[some "a"]]] 0 :=
  c6_flush_at_round_boundaries_guarded [[[some "b"]], [[some "a"]]] 0 (by decide)

/-- The sort-key and return-shape facts C7 claims of one engine run. -/
def finalReturnOk (rounds : List (List (List (Option String)))) : Prop :=
  engineReturn rounds
      = ((runRounds rounds).flushFlag, sortThree (runRounds rounds).sorting) ∧
  (∀ w ∈ (runRounds rounds).writes,
    ∃ a b, w = sortTwo (((rounds.take b).drop a).flatten)) ∧
  (∀ buf : List (List (Option String)),
    List.Perm (sortTwo buf) buf ∧ List.Perm (sortThree buf) buf) ∧
  (∀ buf : List (List (Option String)), cmpAll recCmp2 buf →
    (sortTwo buf).Pairwise (oLe recCmp2)) ∧
  (cmpAll recCmp3 (runRounds rounds).sorting →
    (engineReturn rounds).2.Pairwise (oLe recCmp3))

/-- C7: every intermediate batch handed to the sink is the buffer sorted
by the first-two-columns composite key (`data[0:2]`), the engine's return
value is the pair of the partial-write flag and the remaining buffer
sorted by the first-three-columns key (`data[0:3]`), and the final batch
is returned rather than written (the write list is unchanged by the final
sort).  Sortedness is stated for buffers whose compared key slices are
pairwise comparable, which is exactly when Python's sort succeeds. -/
theorem c7_composite_sort_keys (rounds : List (List (List (Option String)))) :
    finalReturnOk rounds := by
  refine ⟨rfl, ?_, ?_, ?_, ?_⟩
  · have h := (runRounds_prefix_shape rounds rounds.length).2
    rw [List.take_length] at h
    exact h
  · intro buf
    exact ⟨stableSort_perm _ _, stableSort_perm _ _⟩
  · intro buf hall
    exact stableSort_pairwise sortCmp_recCmp2 buf hall
  · intro hall
    exact stableSort_pairwise sortCmp_recCmp3 _ hall

/-- The output directory `WriteData.__init__` derives:
`f'{base_directory}result/'`. -/
def writeDataDirectory (baseDirectory : String) : String := baseDirectory ++ "result/"

/-- The output file `FileGenerator.__init__` derives:
`f'{directory}{file_name}.{extension}'`. -/
def writeDataFile (baseDirectory fileName extension : String) : String :=
  writeDataDirectory baseDirectory ++ fileName ++ "." ++ extension

/-- The file targeted by the writer `main.process_data` builds,
`WriteData(path)` with default name and extension: the header line and the
final batch go here. -/
def mainWriterFile (path : String) : String := writeDataFile path "result" "tsv"

/-- The file targeted by the writer each partial flush builds inside
`ProcessData.process_data`: `WriteData()` with every argument defaulted,
hence base directory `'../data/'` whatever directory the user chose. -/
def flushWriterFile : String := writeDataFile "../data/" "result" "tsv"

/-- C2 as stated fails: with a chosen source directory other than the
default, the header and final batch go under the chosen directory while a
partial flush is appended under `'../data/result/'`, a different file. -/
theorem c2_counterexample_flush_path :
    mainWriterFile "/data/input/" ≠ flushWriterFile ∧
    flushWriterFile = "../data/result/result.tsv" := by
  constructor
  · intro h
    exact absurd (congrArg String.data h) (by decide)
  · decide

/-- The actual output-path behavior of one run with chosen directory
`path`. -/
def outputPathsOk (path : String) : Prop :=
  mainWriterFile path = path ++ "result/result.tsv" ∧
  flushWriterFile = "../data/result/result.tsv" ∧
  (mainWriterFile path = flushWriterFile ↔ path = "../data/")

theorem mainWriterFile_eq (path : String) :
    mainWriterFile path = path ++ "result/result.tsv" := by
  unfold mainWriterFile writeDataFile writeDataDirectory
  rw [String.append_assoc, String.append_assoc, String.append_assoc]
  exact congrArg (fun s => path ++ s) (by decide)

/-- C2 (amended): the header line and the final batch are written to
`result/result.tsv` under the chosen source directory, but every
intermediate partial flush is appended to the default
`../data/result/result.tsv`; all writes of a run land in one file exactly
when the chosen directory is the default `../data/`. -/
theorem c2_output_paths (path : String) : outputPathsOk path := by
  refine ⟨mainWriterFile_eq path, by decide, ?_, ?_⟩
  · intro h
    rw [mainWriterFile_eq path] at h
    have h' : path ++ "result/result.tsv" = "../data/" ++ "result/result.tsv" := by
      rw [h]
      decide
    have hd := congrArg String.data h'
    rw [String.data_append, String.data_append] at hd
    exact strData_inj (List.append_cancel_right hd)
  · intro h
    rw [mainWriterFile_eq path, h]
    decide

/-- A Python exception kind relevant to the factories. -/
inductive PyExc : Type where
  | keyError
  | valueError
deriving DecidableEq

/-- The one registered output format. -/
inductive FileGen : Type where
  | tsv
deriving DecidableEq

/-- The three registered input formats. -/
inductive FileRdr : Type where
  | csv
  | json
  | xml
deriving DecidableEq

/-- The writer factory registry `FileGeneratorFactory._formats`.  Its
values are generator classes — never `None` — which is what makes the
`if file_generator is None` guard below unreachable. -/
def writerFormats : List (String × Option FileGen) := [("tsv", some FileGen.tsv)]

/-- `FileGeneratorFactory.get_file_generator`:
`file_generator = self._formats[extension]` — Python dict indexing, which
raises `KeyError` when the extension is missing — followed by the
`is None` check that would raise the documented `ValueError`. -/
def getFileGenerator (extension : String) : Except PyExc FileGen :=
  match writerFormats.lookup extension with
  | none => Except.error PyExc.keyError
  | some none => Except.error PyExc.valueError
  | some (some g) => Except.ok g

/-- `WriteData.__init__` around the factory call: `except ValueError`
prints a message and leaves the generator attribute unset (`Except.ok
none`); any other exception — in particular the `KeyError` the factory
actually raises — propagates out of the constructor. -/
def writeDataInit (extension : String) : Except PyExc (Option FileGen) :=
  match getFileGenerator extension with
  | Except.ok g => Except.ok (some g)
  | Except.error PyExc.valueError => Except.ok none
  | Except.error PyExc.keyError => Except.error PyExc.keyError

/-- Splitting a character sequence at every dot, the segments in order:
the result of `file.rsplit('.')` (with no count, `rsplit` and `split`
agree). -/
def splitOnDot : List Char → List (List Char)
  | [] => [[]]
  | c :: cs =>
    if c = '.' then [] :: splitOnDot cs
    else
      match splitOnDot cs with
      | [] => [[c]]
      | seg :: segs => (c :: seg) :: segs

/-- `file.rsplit('.')[-1]`: the text after the last dot, or the whole
name when it has no dot. -/
def extensionOf (file : String) : String :=
  String.mk ((splitOnDot file.data).getLastD file.data)

/-- The reader factory registry `FileReaderFactory._formats`. -/
def readerFormats : List (String × FileRdr) :=
  [("csv", FileRdr.csv), ("json", FileRdr.json), ("xml", FileRdr.xml)]

/-- `FileReaderFactory.get_file_reader`: `self._formats.get(extension)`
then an explicit `None` check raising `ValueError` — the designated
unsupported-format signal, which callers catch. -/
def getFileReader (file : String) : Except PyExc FileRdr :=
  match readerFormats.lookup (extensionOf file) with
  | some rdr => Except.ok rdr
  | none => Except.error PyExc.valueError

/-- C3 (code bug evidence): for an unregistered output extension the
writer factory raises `KeyError` — not the `ValueError` the reader side
raises and `WriteData.__init__` catches — so constructing the output sink
for, say, `yaml` propagates an uncaught exception instead of the claimed
locally-handled unsupported-format signal; the factory can never reach its
own `ValueError`. -/
theorem c3_writer_keyerror_uncaught :
    getFileGenerator "yaml" = Except.error PyExc.keyError ∧
    writeDataInit "yaml" = Except.error PyExc.keyError ∧
    writeDataInit "tsv" = Except.ok (some FileGen.tsv) ∧
    getFileReader "movies.yaml" = Except.error PyExc.valueError ∧
    (∀ extension, getFileGenerator extension ≠ Except.error PyExc.valueError) := by
  refine ⟨rfl, rfl, rfl, rfl, ?_⟩
  intro extension
  unfold getFileGenerator writerFormats
  by_cases h : (extension == "tsv") = true
  · simp [List.lookup, h]
  · simp [List.lookup, h]

/-- One row as `TSVFileGenerator.set_data` writes it: for each cell,
`f"{value if value is not None else ''}\t"` — the cell text (absence as
the empty string) followed by exactly one tab, the last cell included. -/
def tsvRowOut (row : List (Option String)) : String :=
  row.foldl (fun acc v => acc ++ ((match v with | some s => s | none => "") ++ "\t")) ""

/-- The row loop of `TSVFileGenerator.set_data`: after each row whose
index is strictly below `num_records = len(data) - 1`, one newline. -/
def tsvSetDataAux (numRecords : Nat) : Nat → List (List (Option String)) → String
  | _, [] => ""
  | counter, row :: rest =>
    tsvRowOut row ++ (if counter < numRecords then "\n" else "")
      ++ tsvSetDataAux numRecords (counter + 1) rest

/-- `TSVFileGenerator.set_data`: the whole batch appended by one call. -/
def tsvSetData (data : List (List (Option String))) : String :=
  tsvSetDataAux (data.length - 1) 0 data

theorem tsvSetDataAux_shift :
    ∀ (rows : List (List (Option String))) (n c n' c' : Nat),
      (∀ k : Nat, c + k < n ↔ c' + k < n') →
      tsvSetDataAux n c rows = tsvSetDataAux n' c' rows := by
  intro rows
  induction rows with
  | nil => intro n c n' c' _; rfl
  | cons row rest ih =>
    intro n c n' c' hk
    have hrec := ih n (c + 1) n' (c' + 1) (fun k => by
      have := hk (k + 1)
      omega)
    show tsvRowOut row ++ (if c < n then "\n" else "") ++ tsvSetDataAux n (c + 1) rest
        = tsvRowOut row ++ (if c' < n' then "\n" else "") ++ tsvSetDataAux n' (c' + 1) rest
    by_cases hc : c < n
    · have hc' : c' < n' := by
        have := hk 0
        omega
      rw [if_pos hc, if_pos hc', hrec]
    · have hc' : ¬ c' < n' := by
        have := hk 0
        omega
      rw [if_neg hc, if_neg hc', hrec]

/-- C9: a batch is serialized as the rows' renderings separated by single
newlines with no newline after the last row, and each row is every cell —
the absence marker as the empty string — followed by exactly one tab. -/
theorem c9_tsv_batch_bytes :
    (∀ row : List (Option String), tsvRowOut row
        = String.join (row.map (fun v => (match v with | some s => s | none => "") ++ "\t"))) ∧
    tsvSetData [] = "" ∧
    (∀ row : List (Option String), tsvSetData [row] = tsvRowOut row) ∧
    (∀ (row : List (Option String)) (rest : List (List (Option String))), rest ≠ [] →
      tsvSetData (row :: rest) = tsvRowOut row ++ "\n" ++ tsvSetData rest) := by
  refine ⟨?_, rfl, ?_, ?_⟩
  · intro row
    rw [String.join, List.foldl_map]
    rfl
  · intro row
    show tsvRowOut row ++ (if (0 : Nat) < 1 - 1 then "\n" else "") ++ "" = tsvRowOut row
    simp
  · intro row rest hne
    have hpos : 0 < rest.length := List.length_pos.mpr hne
    show tsvRowOut row ++ (if 0 < (row :: rest).length - 1 then "\n" else "")
        ++ tsvSetDataAux ((row :: rest).length - 1) 1 rest
      = tsvRowOut row ++ "\n" ++ tsvSetData rest
    rw [List.length_cons, Nat.add_sub_cancel, if_pos hpos]
    rw [tsvSetDataAux_shift rest rest.length 1 (rest.length - 1) 0 (fun k => by omega)]
    rfl

/-- `JSONFileReader.read_record`: every key-value item's value is
appended to `raw_data`, and a record is yielded exactly when the
accumulated length equals `data_by_record`, the buffer restarting empty
afterwards; a trailing shorter buffer is never yielded. -/
def jsonReadRecord (values : List String) (dataByRecord : Nat) : List (List String) :=
  (values.foldl
    (fun st v =>
      let raw := st.2 ++ [v]
      if raw.length = dataByRecord then (st.1 ++ [raw], []) else (st.1, raw))
    ([], [])).1

/-- Whether `needle` begins `haystack`. -/
def leadsWith : List Char → List Char → Bool
  | _, [] => true
  | [], _ :: _ => false
  | c :: cs, d :: ds => (c = d) && leadsWith cs ds

/-- Whether `needle` occurs contiguously inside `haystack`: Python's
`needle in haystack` on strings. -/
def containsSeg : List Char → List Char → Bool
  | [], ns => ns.isEmpty
  | c :: cs, ns => leadsWith (c :: cs) ns || containsSeg cs ns

def strContainsSub (haystack needle : String) : Bool :=
  containsSeg haystack.data needle.data

/-- The hint `ProcessData.get_data_generators` passes to `read_record`:
`len(headers) if '.json' in file else 0`. -/
def dataByRecord (file : String) (headers : List String) : Nat :=
  if strContainsSub file ".json" then headers.length else 0

theorem jsonReadRecord_zero_aux :
    ∀ (values : List String) (acc : List (List String)) (raw : List String),
      (values.foldl
        (fun st v =>
          let raw := st.2 ++ [v]
          if raw.length = 0 then (st.1 ++ [raw], []) else (st.1, raw))
        (acc, raw)).1 = acc := by
  intro values
  induction values with
  | nil => intro acc raw; rfl
  | cons v vs ih =>
    intro acc raw
    show (vs.foldl _ (if (raw ++ [v]).length = 0 then (acc ++ [raw ++ [v]], []) else (acc, raw ++ [v]))).1 = acc
    rw [if_neg (by simp)]
    exact ih acc (raw ++ [v])

/-- C10: with hint 0 — the expected cell count per record — the JSON
record reader yields nothing at all, whatever the file holds; in
particular a JSON source whose discovered header list is empty gets hint
`len([]) = 0` and contributes no records to the merge. -/
theorem c10_json_hint_zero_yields_nothing :
    (∀ values : List String, jsonReadRecord values 0 = []) ∧
    (∀ (values : List String) (file : String),
      jsonReadRecord values (dataByRecord file []) = []) := by
  have h0 : ∀ values : List String, jsonReadRecord values 0 = [] := by
    intro values
    exact jsonReadRecord_zero_aux values [] []
  refine ⟨h0, ?_⟩
  intro values file
  have hd : dataByRecord file [] = 0 := by
    unfold dataByRecord
    split <;> rfl
  rw [hd]
  exact h0 values

end SortingData
